import Mathlib

/-!
Shallow embedding of the `beyond-semantics-faster-maze-generator` Rust
repository, with verified properties of its maze representation, generators,
A* solver and per-instance PRNG derivation.

Conventions of the embedding:
* Rust `usize`/`u16`/`u32` values are modelled as `Nat`; the code under
  verification never overflows these types on the inputs covered by the
  well-formedness hypotheses stated with each theorem (grid dimensions below
  `2^15`, as required by the `as i16` casts in `solvers/astar.rs`).
* The external PRNG (`rand_xoshiro::Xoshiro256PlusPlus` driven through the
  `rand` crate) is modelled as an infinite stream of raw natural-number draws
  plus a cursor; `gen_range` reduces one raw draw into the requested range and
  fails (`none`) exactly when the range is empty, as `rand` panics there.
* Rust loops without a structural termination measure are embedded with
  explicit fuel and return `Option`; `none` models non-termination (or a
  panic), and every theorem about a loop's result is conditional on the loop
  having returned a value.
-/

namespace MazeGen

/-- `types.rs`: bit-packed maze. Each byte of `grid` holds 8 cells
(bit = 1 means floor, 0 means wall); each row occupies `cols_bytes` bytes. -/
structure Maze where
  grid : List Nat
  start : Nat × Nat
  goal : Nat × Nat
  rows : Nat
  cols : Nat
  cols_bytes : Nat
deriving Repr, DecidableEq

namespace Maze

/-- `types.rs` `Maze::new`: all-wall grid, `cols_bytes = (cols + 7) / 8`. -/
def new (rows cols : Nat) : Maze :=
  let cols_bytes := (cols + 7) / 8
  { grid := List.replicate (rows * cols_bytes) 0
    start := (0, 0)
    goal := (0, 0)
    rows := rows
    cols := cols
    cols_bytes := cols_bytes }

/-- `types.rs` `Maze::get_cell`: false when out of bounds, else the packed bit. -/
def get_cell (m : Maze) (x y : Nat) : Bool :=
  if m.cols ≤ x ∨ m.rows ≤ y then false
  else
    let byte_idx := y * m.cols_bytes + x / 8
    let bit_idx := x % 8
    (m.grid.getD byte_idx 0) &&& (1 <<< bit_idx) != 0

/-- `types.rs` `Maze::set_cell`: no-op when out of bounds, else update one bit.
The `u8` complement `!(1 << bit_idx)` is `255 ^^^ (1 <<< bit_idx)`. -/
def set_cell (m : Maze) (x y : Nat) (value : Bool) : Maze :=
  if m.cols ≤ x ∨ m.rows ≤ y then m
  else
    let byte_idx := y * m.cols_bytes + x / 8
    let bit_idx := x % 8
    let b := m.grid.getD byte_idx 0
    let b' := if value then b ||| (1 <<< bit_idx) else b &&& (255 ^^^ (1 <<< bit_idx))
    { m with grid := m.grid.set byte_idx b' }

/-- Structural well-formedness maintained by `Maze::new`: the byte-per-row
count matches the packing formula and the grid has exactly `rows * cols_bytes`
bytes (in Rust, a shorter grid would make `get_cell`/`set_cell` panic). -/
def wf (m : Maze) : Prop :=
  m.cols_bytes = (m.cols + 7) / 8 ∧ m.grid.length = m.rows * m.cols_bytes

instance (m : Maze) : Decidable m.wf := by
  unfold wf; infer_instance

end Maze

/-! ## Model of the external random source -/

/-- Model of `rand_xoshiro::Xoshiro256PlusPlus` as consumed through `rand`:
an infinite stream of raw draws and a cursor. The concrete xoshiro
output function is external to this repository; every algorithm below is
verified for an arbitrary stream. -/
structure Rng where
  seq : Nat → Nat
  pos : Nat

namespace Rng

/-- Consume one raw draw. -/
def next (r : Rng) : Nat × Rng :=
  (r.seq r.pos, { r with pos := r.pos + 1 })

/-- Model of `rand`'s `gen_range(lo..hi)` (half-open): one draw reduced into
the range; `none` models the panic on an empty range. -/
def gen_range (r : Rng) (lo hi : Nat) : Option (Nat × Rng) :=
  if lo < hi then
    some (lo + (r.seq r.pos) % (hi - lo), { r with pos := r.pos + 1 })
  else none

/-- Model of `rand`'s `gen_range(lo..=hi)` (inclusive). -/
def gen_range_incl (r : Rng) (lo hi : Nat) : Option (Nat × Rng) :=
  if lo ≤ hi then
    some (lo + (r.seq r.pos) % (hi - lo + 1), { r with pos := r.pos + 1 })
  else none

/-- Model of `rng.gen::<f64>() < 0.5` used to pick the parity offset:
one raw draw reduced to a coin flip. -/
def coin (r : Rng) : Bool × Rng :=
  ((r.seq r.pos) % 2 == 0, { r with pos := r.pos + 1 })

end Rng

/-! ## A* solver (`solvers/astar.rs`) -/

/-- `solvers/astar.rs` `AStarNode`. -/
structure AStarNode where
  x : Nat
  y : Nat
  g_score : Nat
  f_score : Nat
deriving Repr, DecidableEq

/-- `solvers/astar.rs:14-20` `impl Ord for AStarNode`: both comparisons are
reversed (`other` compared against `self`), so Rust's max-`BinaryHeap`
serves the minimum `(f_score, g_score)` in lexicographic order. -/
def AStarNode.cmp (self other : AStarNode) : Ordering :=
  (compare other.f_score self.f_score).then (compare other.g_score self.g_score)

/-- `types.rs` `ReasoningEvent`. -/
inductive ReasoningEvent where
  | close (x y g h : Nat)
  | create (x y g h : Nat)
deriving Repr, DecidableEq

/-- `types.rs` `Solution`. -/
structure Solution where
  path : List (Nat × Nat)
  reasoning : List ReasoningEvent
deriving Repr, DecidableEq

/-- `u16::MAX`, the unset sentinel of `g_scores`. The solver's `g_score + 1`
never overflows `u16`: a score of 65535 would have to pass
`tentative_g < g_scores[idx] ≤ 65535`, which is impossible, so plain `Nat`
arithmetic is faithful. -/
def gMAX : Nat := 65535

/-- `u32::MAX`, the unset sentinel of `came_from`. -/
def cfMAX : Nat := 4294967295

/-- Helper of `popMax`: maximal element of `a :: rest` under `AStarNode.cmp`
together with the remaining nodes. -/
def popMaxAux (a : AStarNode) : List AStarNode → AStarNode × List AStarNode
  | [] => (a, [])
  | b :: t =>
    if AStarNode.cmp a (popMaxAux b t).1 = Ordering.lt
    then ((popMaxAux b t).1, a :: (popMaxAux b t).2)
    else (a, b :: t)

/-- Model of Rust's `BinaryHeap`: a bag of nodes; `pop` removes a maximal
element under `AStarNode.cmp` (the tie order among `cmp`-equal nodes is
unspecified in Rust; this model keeps the earliest). -/
def popMax : List AStarNode → Option (AStarNode × List AStarNode)
  | [] => none
  | a :: rest => some (popMaxAux a rest)

/-- `solvers/astar.rs:29-32` `manhattan_distance` (the `i32` arithmetic never
overflows for in-range coordinates). -/
def manhattan_distance (x1 y1 x2 y2 : Nat) : Nat :=
  ((x1 : Int) - (x2 : Int)).natAbs + ((y1 : Int) - (y2 : Int)).natAbs

/-- The mutable state of `astar::solve`: the open heap, the three flat arrays
(modelled as functions of the cell index `idx = y * cols + x`), and the
reasoning trace being accumulated. -/
structure AStarState where
  open_set : List AStarNode
  g_scores : Nat → Nat
  came_from : Nat → Nat
  closed_set : Nat → Bool
  reasoning : List ReasoningEvent

/-- `solvers/astar.rs:63` `DIRECTIONS`. -/
def DIRECTIONS : List (Int × Int) := [(0, -1), (1, 0), (0, 1), (-1, 0)]

/-- One neighbor examination of `astar.rs:94-137`: bounds check, wall/closed
check, and conditional relaxation with a *create* event and a push. -/
def expandNeighbor (maze : Maze) (goal_x goal_y x y g_score current_idx : Nat)
    (st : AStarState) (d : Int × Int) : AStarState :=
  let nxi := (x : Int) + d.1
  let nyi := (y : Int) + d.2
  if nxi < 0 ∨ (maze.cols : Int) ≤ nxi ∨ nyi < 0 ∨ (maze.rows : Int) ≤ nyi then st
  else
    let nx := nxi.toNat
    let ny := nyi.toNat
    let neighbor_idx := ny * maze.cols + nx
    if ¬ maze.get_cell nx ny ∨ st.closed_set neighbor_idx then st
    else
      let tentative_g := g_score + 1
      if tentative_g < st.g_scores neighbor_idx then
        let h := manhattan_distance nx ny goal_x goal_y
        let f := tentative_g + h
        { open_set := ⟨nx, ny, tentative_g, f⟩ :: st.open_set
          g_scores := fun i => if i = neighbor_idx then tentative_g else st.g_scores i
          came_from := fun i => if i = neighbor_idx then current_idx else st.came_from i
          closed_set := st.closed_set
          reasoning := st.reasoning ++ [ReasoningEvent.create nx ny tentative_g h] }
      else st

/-- The body of the `while let Some(current_node) = open_set.pop()` loop of
`astar.rs:65-138`, with explicit fuel; `none` models running out of fuel and
`some` the state at normal loop exit (empty heap or goal break). -/
def solveLoop (maze : Maze) (goal_x goal_y : Nat) : Nat → AStarState → Option AStarState
  | 0, _ => none
  | fuel + 1, st =>
    match popMax st.open_set with
    | none => some st
    | some (cur, rest) =>
      let current_idx := cur.y * maze.cols + cur.x
      if st.closed_set current_idx then
        solveLoop maze goal_x goal_y fuel { st with open_set := rest }
      else
        let h_score := manhattan_distance cur.x cur.y goal_x goal_y
        let st1 : AStarState :=
          { st with
            open_set := rest
            reasoning := st.reasoning ++ [ReasoningEvent.close cur.x cur.y cur.g_score h_score] }
        if cur.x = goal_x ∧ cur.y = goal_y then some st1
        else
          let st2 : AStarState :=
            { st1 with closed_set := fun i => if i = current_idx then true else st1.closed_set i }
          let st3 := DIRECTIONS.foldl
            (expandNeighbor maze goal_x goal_y cur.x cur.y cur.g_score current_idx) st2
          solveLoop maze goal_x goal_y fuel st3

/-- The initial solver state of `astar.rs:36-61`. -/
def solveInit (maze : Maze) : AStarState :=
  let start_x := maze.start.1
  let start_y := maze.start.2
  let goal_x := maze.goal.1
  let goal_y := maze.goal.2
  let start_idx := start_y * maze.cols + start_x
  let start_h := manhattan_distance start_x start_y goal_x goal_y
  { open_set := [⟨start_x, start_y, 0, start_h⟩]
    g_scores := fun i => if i = start_idx then 0 else gMAX
    came_from := fun _ => cfMAX
    closed_set := fun _ => false
    reasoning := [] }

/-- The full search phase: run the loop from the initial state. -/
def solveSearch (maze : Maze) (fuel : Nat) : Option AStarState :=
  solveLoop maze maze.goal.1 maze.goal.2 fuel (solveInit maze)

/-- The `while current_idx != start_idx` reconstruction loop of
`astar.rs:147-159`; `path` is the Vec being pushed to (appending models
`push`), and the `u32::MAX` branch returns the cleared path. -/
def reconstructLoop (cols start_idx : Nat) (came_from : Nat → Nat) :
    Nat → Nat → List (Nat × Nat) → Option (List (Nat × Nat))
  | 0, _, _ => none
  | fuel + 1, current_idx, path =>
    if current_idx = start_idx then some path
    else
      let x := current_idx % cols
      let y := current_idx / cols
      let path := path ++ [(x, y)]
      let prev := came_from current_idx
      if prev = cfMAX then some []
      else reconstructLoop cols start_idx came_from fuel prev path

/-- `solvers/astar.rs` `solve`: search, then path reconstruction
(`astar.rs:140-167`). -/
def solve (maze : Maze) (fuel : Nat) : Option Solution :=
  let start_idx := maze.start.2 * maze.cols + maze.start.1
  let goal_idx := maze.goal.2 * maze.cols + maze.goal.1
  match solveSearch maze fuel with
  | none => none
  | some st =>
    if st.came_from goal_idx ≠ cfMAX ∨ goal_idx = start_idx then
      match reconstructLoop maze.cols start_idx st.came_from fuel goal_idx [] with
      | none => none
      | some path =>
        let path := if path ≠ [] then (path ++ [maze.start]).reverse else path
        some { path := path, reasoning := st.reasoning }
    else
      some { path := [], reasoning := st.reasoning }

/-! ## Specification-side definitions for the solver claims -/

/-- Orthogonal (4-neighbor) adjacency of two cells. -/
def adjacent (a b : Nat × Nat) : Prop :=
  (a.1 = b.1 ∧ (a.2 + 1 = b.2 ∨ b.2 + 1 = a.2)) ∨
    (a.2 = b.2 ∧ (a.1 + 1 = b.1 ∨ b.1 + 1 = a.1))

instance (a b : Nat × Nat) : Decidable (adjacent a b) := by
  unfold adjacent; infer_instance

/-- Whether an event is a *close* event for cell `(x, y)`. -/
def isCloseFor (x y : Nat) : ReasoningEvent → Bool
  | ReasoningEvent.close a b _ _ => a == x && b == y
  | _ => false

/-- Number of *close* events for cell `(x, y)` in a trace. -/
def countClose (x y : Nat) (tr : List ReasoningEvent) : Nat :=
  tr.countP (isCloseFor x y)

/-- Every *close* event for a cell other than `s` is preceded in the trace by
a *create* event for the same cell. -/
def CreatePrecedesClose (s : Nat × Nat) (tr : List ReasoningEvent) : Prop :=
  ∀ (i x y g h : Nat), tr[i]? = some (ReasoningEvent.close x y g h) → (x, y) ≠ s →
    ∃ (j g' h' : Nat), j < i ∧ tr[j]? = some (ReasoningEvent.create x y g' h')

/-- Everything `OpenNodeOK` requires of a node sitting in the open heap:
in-bounds coordinates, a `g_score` at least the cell's recorded best (never
smaller, since `g_scores` only decreases after the push), a `g_score` below
the `u16::MAX` sentinel, the `f = g + h` relation, and — unless the node is
the start — a *create* event already in the trace and a set predecessor. -/
def OpenNodeOK (maze : Maze) (st : AStarState) (n : AStarNode) : Prop :=
  n.x < maze.cols ∧ n.y < maze.rows ∧
    st.g_scores (n.y * maze.cols + n.x) ≤ n.g_score ∧
    n.g_score < gMAX ∧
    n.f_score = n.g_score + manhattan_distance n.x n.y maze.goal.1 maze.goal.2 ∧
    ((n.x, n.y) = maze.start ∨
      ∃ g h, ReasoningEvent.create n.x n.y g h ∈ st.reasoning) ∧
    ((n.x, n.y) = maze.start ∨ st.came_from (n.y * maze.cols + n.x) ≠ cfMAX)

/-- The invariant of the A* search loop. -/
structure SearchInv (maze : Maze) (st : AStarState) : Prop where
  start_inb : maze.start.1 < maze.cols ∧ maze.start.2 < maze.rows
  small : maze.rows * maze.cols < cfMAX
  start_g : st.g_scores (maze.start.2 * maze.cols + maze.start.1) = 0
  start_cf : st.came_from (maze.start.2 * maze.cols + maze.start.1) = cfMAX
  open_ok : ∀ n ∈ st.open_set, OpenNodeOK maze st n
  open_best : ∀ x y, x < maze.cols → y < maze.rows →
    st.closed_set (y * maze.cols + x) = false →
    st.g_scores (y * maze.cols + x) < gMAX →
    ∃ n ∈ st.open_set, n.x = x ∧ n.y = y ∧
      n.g_score = st.g_scores (y * maze.cols + x)
  g_le_max : ∀ i, st.g_scores i ≤ gMAX
  cf_graph : ∀ x y, x < maze.cols → y < maze.rows →
    st.came_from (y * maze.cols + x) ≠ cfMAX →
    (x, y) ≠ maze.start ∧ maze.get_cell x y = true ∧
      ∃ px py, px < maze.cols ∧ py < maze.rows ∧
        st.came_from (y * maze.cols + x) = py * maze.cols + px ∧
        adjacent (px, py) (x, y) ∧ st.closed_set (py * maze.cols + px) = true ∧
        st.g_scores (y * maze.cols + x) = st.g_scores (py * maze.cols + px) + 1
  closed_cf : ∀ x y, x < maze.cols → y < maze.rows →
    st.closed_set (y * maze.cols + x) = true → (x, y) ≠ maze.start →
    st.came_from (y * maze.cols + x) ≠ cfMAX
  close_count : ∀ x y, countClose x y st.reasoning =
    if x < maze.cols ∧ y < maze.rows ∧ st.closed_set (y * maze.cols + x) = true
    then 1 else 0
  prec : CreatePrecedesClose maze.start st.reasoning

/-- What survives of the invariant in the state returned by the search loop
(after a goal break the just-closed goal cell has a *close* event but its
closed flag was never set, so only these consequences remain). -/
structure FinalInv (maze : Maze) (st : AStarState) : Prop where
  start_g : st.g_scores (maze.start.2 * maze.cols + maze.start.1) = 0
  start_cf : st.came_from (maze.start.2 * maze.cols + maze.start.1) = cfMAX
  cf_graph : ∀ x y, x < maze.cols → y < maze.rows →
    st.came_from (y * maze.cols + x) ≠ cfMAX →
    (x, y) ≠ maze.start ∧ maze.get_cell x y = true ∧
      ∃ px py, px < maze.cols ∧ py < maze.rows ∧
        st.came_from (y * maze.cols + x) = py * maze.cols + px ∧
        adjacent (px, py) (x, y) ∧ st.closed_set (py * maze.cols + px) = true ∧
        st.g_scores (y * maze.cols + x) = st.g_scores (py * maze.cols + px) + 1
  closed_cf : ∀ x y, x < maze.cols → y < maze.rows →
    st.closed_set (y * maze.cols + x) = true → (x, y) ≠ maze.start →
    st.came_from (y * maze.cols + x) ≠ cfMAX
  close_le : ∀ x y, countClose x y st.reasoning ≤ 1
  prec : CreatePrecedesClose maze.start st.reasoning

end MazeGen

namespace MazeGen

/-! ## Searchformer wall-count draw (`generators/searchformer.rs:14-27`) -/

namespace searchformer

/-- `generators/searchformer.rs:14-17`: integer-division wall-count bounds,
`(base * 3, base * 5)` with `base = rows * cols / 10`. -/
def wallBounds (rows cols : Nat) : Nat × Nat :=
  let total := rows * cols
  let base := total / 10
  (base * 3, base * 5)

/-- `generators/searchformer.rs:27`: `rng.gen_range(min_walls..=max_walls)`. -/
def drawNumWalls (rng : Rng) (rows cols : Nat) : Option (Nat × Rng) :=
  let bounds := wallBounds rows cols
  rng.gen_range_incl bounds.1 bounds.2

end searchformer

/-! ## Generators (`generators/*.rs`) -/

/-- Swap of two list positions (no-op when either index is out of range),
the primitive of the Fisher–Yates shuffle. -/
def listSwap {α : Type} (l : List α) (i j : Nat) : List α :=
  match l[i]?, l[j]? with
  | some a, some b => (l.set i b).set j a
  | _, _ => l

/-- The inner loop of rand's `SliceRandom::shuffle` (Fisher–Yates):
`for i in (1..len).rev() { swap(i, gen_range(0..=i)) }`; the counter is the
current index `i`. -/
def shuffleAux {α : Type} : Nat → List α → Rng → List α × Rng
  | 0, l, rng => (l, rng)
  | i + 1, l, rng =>
    match rng.gen_range_incl 0 (i + 1) with
    | none => (l, rng)
    | some (j, rng') => shuffleAux i (listSwap l (i + 1) j) rng'

/-- Model of rand's `shuffle` on a slice. -/
def shuffle {α : Type} (l : List α) (rng : Rng) : List α × Rng :=
  shuffleAux (l.length - 1) l rng

/-- Model of `parameters.rs` `GeneratorParams` as consumed by the drunkard's
walk: the only read is `params.get("coverage", 0.5).clamp(0.01, 1.0)`, used
once as `(total as f64 * coverage) as usize`. `f64` arithmetic is not
modelled bit-exactly; `coverageTarget` is that whole computation as a
function of the total cell count, constrained by the one property the
clamped multiplication guarantees (`coverage ≤ 1.0` ⇒ result ≤ total). -/
structure GeneratorParams where
  coverageTarget : Nat → Nat
  coverageTarget_le : ∀ t, coverageTarget t ≤ t

/-- `main.rs` `GeneratorType`. -/
inductive GeneratorType where
  | dfs
  | kruskal
  | wilson
  | searchformer
  | drunkardsWalk
deriving Repr, DecidableEq

/-- `main.rs` `SolverType`. -/
inductive SolverType where
  | astar
deriving Repr, DecidableEq

/-- All grid cells in row-major order (the iteration space of the generator
scans). -/
def allCells (rows cols : Nat) : List (Nat × Nat) :=
  (List.range rows).flatMap fun y => (List.range cols).map fun x => (x, y)

/-- The floor-cell scan shared by the generators (`dfs.rs:76-83`,
`kruskal.rs:151-158`, `wilson.rs:111-118`, `drunkards_walk.rs:68-75`):
row-major collection of all floor cells. -/
def collectFloors (maze : Maze) : List (Nat × Nat) :=
  (List.range maze.rows).flatMap fun y =>
    (List.range maze.cols).filterMap fun x =>
      if maze.get_cell x y then some (x, y) else none

/-- The `while goal_idx == start_idx` resampling loop of the shared
start/goal picker (with fuel). -/
def resampleGoal (len start_idx : Nat) : Nat → Nat → Rng → Option (Nat × Rng)
  | fuel, goal_idx, rng =>
    if goal_idx = start_idx then
      match fuel with
      | 0 => none
      | fuel + 1 =>
        match rng.gen_range 0 len with
        | none => none
        | some (g', rng') => resampleGoal len start_idx fuel g' rng'
    else some (goal_idx, rng)

/-- The start/goal selection block duplicated verbatim at the end of
`dfs.rs:75-96`, `kruskal.rs:149-171` and `wilson.rs:110-131`: scan floors,
draw `start_idx`, redraw `goal_idx` until it differs, assign both. -/
def pick_start_goal (maze : Maze) (rng : Rng) (fuel : Nat) : Option (Maze × Rng) :=
  let floors := collectFloors maze
  match rng.gen_range 0 floors.length with
  | none => none
  | some (start_idx, rng1) =>
    match rng1.gen_range 0 floors.length with
    | none => none
    | some (g0, rng2) =>
      match resampleGoal floors.length start_idx fuel g0 rng2 with
      | none => none
      | some (goal_idx, rng3) =>
        some ({ maze with
          start := floors.getD start_idx (0, 0)
          goal := floors.getD goal_idx (0, 0) }, rng3)

namespace dfs

/-- `dfs.rs:29` `DIRECTIONS` (two-cell jumps). -/
def JUMPS : List (Int × Int) := [(0, -2), (2, 0), (0, 2), (-2, 0)]

/-- `dfs.rs:37-53`: the in-bounds still-wall neighbors two cells away. -/
def neighborsOf (maze : Maze) (x y : Nat) : List (Nat × Nat) :=
  JUMPS.filterMap fun d =>
    let nx := (x : Int) + d.1
    let ny := (y : Int) + d.2
    if 0 ≤ nx ∧ nx < (maze.cols : Int) ∧ 0 ≤ ny ∧ ny < (maze.rows : Int) then
      if ¬ maze.get_cell nx.toNat ny.toNat then some (nx.toNat, ny.toNat) else none
    else none

/-- `dfs.rs:35-73`: the DFS carving loop over an explicit stack (head of the
list is the top of the stack). -/
def dfsLoop (maze : Maze) (rng : Rng) (stack : List (Nat × Nat)) :
    Nat → Option (Maze × Rng)
  | 0 => none
  | fuel + 1 =>
    match stack with
    | [] => some (maze, rng)
    | (x, y) :: rest =>
      let neighbors := neighborsOf maze x y
      if neighbors.isEmpty then dfsLoop maze rng rest fuel
      else
        match rng.gen_range 0 neighbors.length with
        | none => none
        | some (i, rng') =>
          let n := neighbors.getD i (0, 0)
          let maze := maze.set_cell n.1 n.2 true
          let maze := maze.set_cell ((x + n.1) / 2) ((y + n.2) / 2) true
          dfsLoop maze rng' (n :: (x, y) :: rest) fuel

/-- `dfs.rs` `generate` (recursive backtracker). On `cols < offset` or
`rows < offset` the Nat subtraction truncates where Rust would panic in
debug; both end in a failed `gen_range` on an empty range (`none`). -/
def generate (rng : Rng) (rows cols : Nat) (fuel : Nat) : Option (Maze × Rng) :=
  let maze := Maze.new rows cols
  let c := rng.coin
  let offset := if c.1 then 0 else 1
  match c.2.gen_range 0 ((cols - offset) / 2) with
  | none => none
  | some (kx, rng) =>
    match rng.gen_range 0 ((rows - offset) / 2) with
    | none => none
    | some (ky, rng) =>
      let start_x := offset + 2 * kx
      let start_y := offset + 2 * ky
      let maze := maze.set_cell start_x start_y true
      match dfsLoop maze rng [(start_x, start_y)] fuel with
      | none => none
      | some (maze, rng) => pick_start_goal maze rng fuel

end dfs

namespace drunkards_walk

/-- `drunkards_walk.rs:33` `DIRECTIONS` (single-cell steps). -/
def STEPS : List (Int × Int) := [(-1, 0), (1, 0), (0, -1), (0, 1)]

/-- `drunkards_walk.rs:41-48`: the directions staying in bounds. -/
def validDirs (rows cols x y : Nat) : List (Int × Int) :=
  STEPS.filter fun d => decide (0 ≤ (x : Int) + d.1 ∧ (x : Int) + d.1 < (cols : Int) ∧
    0 ≤ (y : Int) + d.2 ∧ (y : Int) + d.2 < (rows : Int))

/-- `drunkards_walk.rs:39-65`: the random-walk carving loop (`while carved <
target`), with the defensive `break` when no direction stays in bounds. -/
def walkLoop (rows cols target : Nat) :
    Nat → Maze → Rng → Nat → Nat → Nat → Option (Maze × Rng)
  | 0, _, _, _, _, _ => none
  | fuel + 1, maze, rng, x, y, carved =>
    if carved < target then
      let dirs := validDirs rows cols x y
      if dirs.isEmpty then some (maze, rng)
      else
        match rng.gen_range 0 dirs.length with
        | none => none
        | some (i, rng') =>
          let d := dirs.getD i (0, 0)
          let x' := ((x : Int) + d.1).toNat
          let y' := ((y : Int) + d.2).toNat
          if ¬ maze.get_cell x' y' then
            walkLoop rows cols target fuel (maze.set_cell x' y' true) rng' x' y' (carved + 1)
          else
            walkLoop rows cols target fuel maze rng' x' y' carved
    else some (maze, rng)

/-- `drunkards_walk.rs:78-95`: the defensive patch carving extra cells when
fewer than 2 floor cells exist, scanning cells row-major with early exit once
two floor cells are collected. -/
def patchLoop : Maze → List (Nat × Nat) → List (Nat × Nat) → Maze × List (Nat × Nat)
  | maze, floors, [] => (maze, floors)
  | maze, floors, c :: rest =>
    if 2 ≤ floors.length then (maze, floors)
    else if ¬ maze.get_cell c.1 c.2 then
      patchLoop (maze.set_cell c.1 c.2 true) (floors ++ [c]) rest
    else patchLoop maze floors rest

/-- The goal resampling loop guarded by `floors.len() > 1`
(`drunkards_walk.rs:101-104`). -/
def resampleGoalGuarded (len start_idx : Nat) : Nat → Nat → Rng → Option (Nat × Rng)
  | fuel, goal_idx, rng =>
    if goal_idx = start_idx ∧ 1 < len then
      match fuel with
      | 0 => none
      | fuel + 1 =>
        match rng.gen_range 0 len with
        | none => none
        | some (g', rng') => resampleGoalGuarded len start_idx fuel g' rng'
    else some (goal_idx, rng)

/-- `drunkards_walk.rs` `generate`. -/
def generate (rng : Rng) (rows cols : Nat) (params : GeneratorParams) (fuel : Nat) :
    Option (Maze × Rng) :=
  let target := (params.coverageTarget (rows * cols)).max 2
  let maze := Maze.new rows cols
  match rng.gen_range 0 cols with
  | none => none
  | some (x, rng) =>
    match rng.gen_range 0 rows with
    | none => none
    | some (y, rng) =>
      let maze := maze.set_cell x y true
      match walkLoop rows cols target fuel maze rng x y 1 with
      | none => none
      | some (maze, rng) =>
        let floors := collectFloors maze
        let pf :=
          if floors.length < 2 then patchLoop maze floors (allCells rows cols)
          else (maze, floors)
        match rng.gen_range 0 pf.2.length with
        | none => none
        | some (start_idx, rng) =>
          match rng.gen_range 0 pf.2.length with
          | none => none
          | some (g0, rng) =>
            match resampleGoalGuarded pf.2.length start_idx fuel g0 rng with
            | none => none
            | some (goal_idx, rng) =>
              some ({ pf.1 with
                start := pf.2.getD start_idx (0, 0)
                goal := pf.2.getD goal_idx (0, 0) }, rng)

end drunkards_walk

namespace wilson

/-- `wilson.rs:34` `dirs`. -/
def DIRS : List (Int × Int) := [(2, 0), (-2, 0), (0, 2), (0, -2)]

/-- `wilson.rs:19-24`: room coordinates on the parity sublattice, row-major
(the `step_by(2)` ranges). -/
def roomList (rows cols offset : Nat) : List (Nat × Nat) :=
  (List.range ((rows - offset + 1) / 2)).flatMap fun ry =>
    (List.range ((cols - offset + 1) / 2)).map fun rx =>
      (offset + rx * 2, offset + ry * 2)

/-- `wilson.rs:39-46`: redraw a random room until one outside the maze set. -/
def pickRoot (rooms inMaze : List (Nat × Nat)) :
    Nat → Rng → Option ((Nat × Nat) × Rng)
  | 0, _ => none
  | fuel + 1, rng =>
    match rng.gen_range 0 rooms.length with
    | none => none
    | some (i, rng') =>
      let root := rooms.getD i (0, 0)
      if root ∈ inMaze then pickRoot rooms inMaze fuel rng' else some (root, rng')

/-- `wilson.rs:53-90`: one loop-erased random walk; ends when a cell of the
maze set is reached (the `index_map` is modelled by `findIdx?` on the path,
with which it stays consistent). -/
def walkLoop (rows cols : Nat) (inMaze : List (Nat × Nat)) :
    Nat → List (Nat × Nat) → Rng → Option (List (Nat × Nat) × Rng)
  | 0, _, _ => none
  | fuel + 1, path, rng =>
    let c := path.getD (path.length - 1) (0, 0)
    match rng.gen_range 0 DIRS.length with
    | none => none
    | some (i, rng') =>
      let d := DIRS.getD i (0, 0)
      let nxi := (c.1 : Int) + d.1
      let nyi := (c.2 : Int) + d.2
      if nxi < 0 ∨ (cols : Int) ≤ nxi ∨ nyi < 0 ∨ (rows : Int) ≤ nyi then
        walkLoop rows cols inMaze fuel path rng'
      else
        let next := (nxi.toNat, nyi.toNat)
        if next ∈ inMaze then some (path ++ [next], rng')
        else
          match path.findIdx? (fun p => p = next) with
          | some idx => walkLoop rows cols inMaze fuel (path.take (idx + 1)) rng'
          | none => walkLoop rows cols inMaze fuel (path ++ [next]) rng'

/-- `wilson.rs:92-107`: carve the path cells (adding new ones to the maze
set) and the wall between each consecutive pair. -/
def carvePath : Maze → List (Nat × Nat) → Option (Nat × Nat) → List (Nat × Nat) →
    Maze × List (Nat × Nat)
  | maze, inMaze, _, [] => (maze, inMaze)
  | maze, inMaze, prev, c :: rest =>
    let mi :=
      if c ∈ inMaze then (maze, inMaze)
      else (maze.set_cell c.1 c.2 true, inMaze ++ [c])
    let maze' :=
      match prev with
      | none => mi.1
      | some p => mi.1.set_cell ((p.1 + c.1) / 2) ((p.2 + c.2) / 2) true
    carvePath maze' mi.2 (some c) rest

/-- `wilson.rs:37-108`: run walks until every room is in the maze set. -/
def outerLoop (rows cols : Nat) (rooms : List (Nat × Nat)) :
    Nat → Maze → List (Nat × Nat) → Rng → Option (Maze × Rng)
  | 0, _, _, _ => none
  | fuel + 1, maze, inMaze, rng =>
    if inMaze.length < rooms.length then
      match pickRoot rooms inMaze fuel rng with
      | none => none
      | some (root, rng) =>
        match walkLoop rows cols inMaze fuel [root] rng with
        | none => none
        | some (path, rng) =>
          let mi := carvePath maze inMaze none path
          outerLoop rows cols rooms fuel mi.1 mi.2 rng
    else some (maze, rng)

/-- `wilson.rs` `generate`. -/
def generate (rng : Rng) (rows cols : Nat) (fuel : Nat) : Option (Maze × Rng) :=
  let maze := Maze.new rows cols
  let c := rng.coin
  let offset := if c.1 then 0 else 1
  let rooms := roomList rows cols offset
  match c.2.gen_range 0 rooms.length with
  | none => none
  | some (fi, rng) =>
    let s0 := rooms.getD fi (0, 0)
    let maze := maze.set_cell s0.1 s0.2 true
    match outerLoop rows cols rooms fuel maze [s0] rng with
    | none => none
    | some (maze, rng) => pick_start_goal maze rng fuel

end wilson

namespace kruskal

/-- `kruskal.rs:7-10` `UnionFind` (`u16`/`u8` modelled as `Nat`; the ranks
stay at most log₂ of the size and the ids below 2^16 under the dimension
bounds, so no overflow occurs). -/
structure UnionFind where
  parent : List Nat
  rank : List Nat
deriving Repr, DecidableEq

/-- `kruskal.rs:13-18` `UnionFind::new`. -/
def UnionFind.new (size : Nat) : UnionFind :=
  { parent := List.range size, rank := List.replicate size 0 }

/-- `kruskal.rs:21-27` recursive `find` with path compression (with fuel). -/
def find : Nat → UnionFind → Nat → Option (Nat × UnionFind)
  | 0, _, _ => none
  | fuel + 1, uf, x =>
    let px := uf.parent.getD x 0
    if px ≠ x then
      match find fuel uf px with
      | none => none
      | some (r, uf') => some (r, { uf' with parent := uf'.parent.set x r })
    else some (px, uf)

/-- `kruskal.rs:31-54` `union` (union by rank); returns whether the two
roots differed. -/
def union (fuel : Nat) (uf : UnionFind) (x y : Nat) : Option (Bool × UnionFind) :=
  match find fuel uf x with
  | none => none
  | some (root_x, uf1) =>
    match find fuel uf1 y with
    | none => none
    | some (root_y, uf2) =>
      if root_x = root_y then some (false, uf2)
      else
        let rx := uf2.rank.getD root_x 0
        let ry := uf2.rank.getD root_y 0
        if rx < ry then some (true, { uf2 with parent := uf2.parent.set root_x root_y })
        else if ry < rx then some (true, { uf2 with parent := uf2.parent.set root_y root_x })
        else some (true,
          { parent := uf2.parent.set root_y root_x
            rank := uf2.rank.set root_x (rx + 1) })

/-- `kruskal.rs:58-63` `Edge`. -/
structure Edge where
  room1 : Nat
  room2 : Nat
  wall_pos : Nat
deriving Repr, DecidableEq

/-- `kruskal.rs:67-69` `pack_wall_pos`. -/
def pack_wall_pos (x y : Nat) : Nat := (y <<< 16) ||| x

/-- `kruskal.rs:72-75` `unpack_wall_pos`. -/
def unpack_wall_pos (packed : Nat) : Nat × Nat := (packed &&& 65535, packed >>> 16)

/-- The room pre-carving of the single pass `kruskal.rs:97-133` (the maze
writes of the pass; they are independent of the edge list built alongside). -/
def carveRooms (maze : Maze) (room_rows room_cols offset : Nat) : Maze :=
  (List.range room_rows).foldl (fun mz ry =>
    (List.range room_cols).foldl (fun mz2 rx =>
      mz2.set_cell (offset + rx * 2) (offset + ry * 2) true) mz) maze

/-- The edge building of the single pass `kruskal.rs:97-133`: a right and a
down edge per room where a neighbor room exists, in row-major room order. -/
def buildEdges (room_rows room_cols offset : Nat) : List Edge :=
  (List.range room_rows).flatMap fun room_y =>
    (List.range room_cols).flatMap fun room_x =>
      let room_id := room_y * room_cols + room_x
      let x := offset + room_x * 2
      let y := offset + room_y * 2
      (if room_x + 1 < room_cols then
        [{ room1 := room_id, room2 := room_id + 1, wall_pos := pack_wall_pos (x + 1) y }]
      else []) ++
      (if room_y + 1 < room_rows then
        [{ room1 := room_id, room2 := room_id + room_cols,
           wall_pos := pack_wall_pos x (y + 1) }]
      else [])

/-- `kruskal.rs:142-147`: process edges in order, carving the wall of every
successful union; the extra `Nat` counts the carved connecting walls. -/
def processEdges (fuel : Nat) : List Edge → Maze → UnionFind → Nat →
    Option (Maze × UnionFind × Nat)
  | [], maze, uf, carved => some (maze, uf, carved)
  | e :: rest, maze, uf, carved =>
    match union fuel uf e.room1 e.room2 with
    | none => none
    | some (ok, uf') =>
      if ok then
        let w := unpack_wall_pos e.wall_pos
        processEdges fuel rest (maze.set_cell w.1 w.2 true) uf' (carved + 1)
      else processEdges fuel rest maze uf' carved

/-- `kruskal.rs` `generate`. -/
def generate (rng : Rng) (rows cols : Nat) (fuel : Nat) : Option (Maze × Rng) :=
  let maze := Maze.new rows cols
  let c := rng.coin
  let offset := if c.1 then 0 else 1
  let room_rows := (rows - offset + 1) / 2
  let room_cols := (cols - offset + 1) / 2
  let num_rooms := room_rows * room_cols
  let maze := carveRooms maze room_rows room_cols offset
  let edges := buildEdges room_rows room_cols offset
  let sh := shuffle edges c.2
  match processEdges fuel sh.1 maze (UnionFind.new num_rooms) 0 with
  | none => none
  | some (maze, _, _) => pick_start_goal maze sh.2 fuel

end kruskal

/-- Iterate the parent pointers of a union-find parent array `k` steps,
stopping at a fixpoint (specification device for `kruskal.find`). -/
def rootAux : Nat → List Nat → Nat → Nat
  | 0, _, x => x
  | k + 1, p, x => if p.getD x 0 = x then x else rootAux k p (p.getD x 0)

/-- `r` is the root of `x` in the parent array `p`: finitely many parent
steps from `x` reach the fixpoint `r`. -/
def RootOf (p : List Nat) (x r : Nat) : Prop :=
  ∃ k, rootAux k p x = r ∧ p.getD r 0 = r

/-- Two elements lie in the same union-find class. -/
def SameRoot (p : List Nat) (a b : Nat) : Prop :=
  ∃ r, RootOf p a r ∧ RootOf p b r

/-- All parent pointers of the array stay inside the array. -/
def BoundedParent (p : List Nat) : Prop :=
  ∀ i, i < p.length → p.getD i 0 < p.length

/-- The number of root indices of the parent array (the number of
union-find classes once every chain terminates). -/
def countRoots (p : List Nat) : Nat :=
  (List.range p.length).countP (fun i => p.getD i 0 == i)

namespace searchformer

/-- `searchformer.rs:45-74`: up to `attempts` start/goal placements on the
carved maze; each shuffles the free cells, takes the first two as start and
goal, runs the full A* solver, and accepts when a path exists with length at
least `minLen`. `some none` means all attempts failed (retry the walls);
`none` means the solver ran out of fuel. -/
def tryPlacements (cols fuel minLen : Nat) :
    Nat → Maze → List Nat → Rng → Option (Option Maze × Rng)
  | 0, _, _, rng => some (none, rng)
  | k + 1, maze, free_cells, rng =>
    let sh := shuffle free_cells rng
    if sh.1.length < 2 then some (none, sh.2)
    else
      let start_idx := sh.1.getD 0 0
      let goal_idx := sh.1.getD 1 0
      let maze' := { maze with
        start := (start_idx % cols, start_idx / cols)
        goal := (goal_idx % cols, goal_idx / cols) }
      match solve maze' fuel with
      | none => none
      | some sol =>
        if sol.path ≠ [] ∧ minLen ≤ sol.path.length then some (some maze', sh.2)
        else tryPlacements cols fuel minLen k maze' sh.1 sh.2

/-- `searchformer.rs:22-78`: the outer rejection-sampling loop; each round
shuffles the indices, draws a wall count, carves the passages and tries 100
placements. -/
def outerLoop (rows cols fuel : Nat) : Nat → List Nat → Rng → Option (Maze × Rng)
  | 0, _, _ => none
  | k + 1, indices, rng =>
    let sh := shuffle indices rng
    match drawNumWalls sh.2 rows cols with
    | none => none
    | some (num_walls, rng) =>
      let passages := sh.1.drop num_walls
      let maze := passages.foldl
        (fun mz idx => mz.set_cell (idx % cols) (idx / cols) true) (Maze.new rows cols)
      match tryPlacements cols fuel (rows.max cols) 100 maze passages rng with
      | none => none
      | some (some m, rng) => some (m, rng)
      | some (none, rng) => outerLoop rows cols fuel k sh.1 rng

/-- `searchformer.rs` `generate`. -/
def generate (rng : Rng) (rows cols : Nat) (fuel : Nat) : Option (Maze × Rng) :=
  outerLoop rows cols fuel fuel (List.range (rows * cols)) rng

end searchformer

/-- `generators/mod.rs` `generate_maze` dispatch. -/
def generate_maze (g : GeneratorType) (rng : Rng) (rows cols : Nat)
    (params : GeneratorParams) (fuel : Nat) : Option (Maze × Rng) :=
  match g with
  | GeneratorType.wilson => wilson.generate rng rows cols fuel
  | GeneratorType.dfs => dfs.generate rng rows cols fuel
  | GeneratorType.kruskal => kruskal.generate rng rows cols fuel
  | GeneratorType.drunkardsWalk => drunkards_walk.generate rng rows cols params fuel
  | GeneratorType.searchformer => searchformer.generate rng rows cols fuel

/-- `#[derive(Hash)]` on the fieldless `GeneratorType` enum feeds the variant
discriminant to the hasher (`main.rs:22-29`). -/
def GeneratorType.code : GeneratorType → Nat
  | GeneratorType.dfs => 0
  | GeneratorType.kruskal => 1
  | GeneratorType.wilson => 2
  | GeneratorType.searchformer => 3
  | GeneratorType.drunkardsWalk => 4

/-- `#[derive(Hash)]` on `SolverType` (`main.rs:31-35`). -/
def SolverType.code : SolverType → Nat
  | SolverType.astar => 0

/-- `prng.rs:8-36` `create_instance_prng`. The external std `DefaultHasher`
is modelled by an arbitrary pure digest `H` of the absorbed word sequence
(state = words written so far; `finish` reads it), and the external
`Xoshiro256PlusPlus::from_seed` by an arbitrary pure stream constructor
`xoshiro` of the four seed words `hash1..hash4`. The function absorbs
exactly `master_seed`, the generator discriminant, the solver discriminant
and `instance_id`, then extends the stream with each finished hash. -/
def create_instance_prng (H : List Nat → Nat) (xoshiro : List Nat → Rng)
    (master_seed : Nat) (g : GeneratorType) (s : SolverType) (instance_id : Nat) :
    Rng :=
  let words := [master_seed, g.code, s.code, instance_id]
  let hash1 := H words
  let hash2 := H (words ++ [hash1])
  let hash3 := H (words ++ [hash1, hash2])
  let hash4 := H (words ++ [hash1, hash2, hash3])
  xoshiro [hash1, hash2, hash3, hash4]

/-- `solvers/mod.rs` `solve_maze` dispatch. -/
def solve_maze (s : SolverType) (maze : Maze) (fuel : Nat) : Option Solution :=
  match s with
  | SolverType.astar => solve maze fuel

/-- The per-instance body of the batch loop (`main.rs:184-206`): create the
instance PRNG, generate, solve. -/
def runInstance (H : List Nat → Nat) (xoshiro : List Nat → Rng) (seed : Nat)
    (g : GeneratorType) (s : SolverType) (rows cols : Nat) (params : GeneratorParams)
    (fuel instance_id : Nat) : Option (Maze × Solution) :=
  let rng := create_instance_prng H xoshiro seed g s instance_id
  match generate_maze g rng rows cols params fuel with
  | none => none
  | some (maze, _) =>
    match solve_maze s maze fuel with
    | none => none
    | some sol => some (maze, sol)

/-- `main.rs:140` `BATCH_SIZE`. -/
def BATCH_SIZE : Nat := 1000

/-- `main.rs:176-179` `(0..count).step_by(bs)`: the batch start indices. -/
def batchStarts (bs count : Nat) : List Nat :=
  (List.range ((count + bs - 1) / bs)).map (fun j => j * bs)

/-- `main.rs:181-184`: the instance ids of the batch starting at `start`
(`batch_start..min(batch_start + bs, count)`). -/
def batchInstances (bs count start : Nat) : List Nat :=
  List.range' start (min (start + bs) count - start)

/-- The batched pipeline (`main.rs:176-211`): each batch runs its instances
in order and tags every result with its `instance_id` (the `MazeResult`
pairing); rayon only affects the order in which whole batches are sent. -/
def runBatched (H : List Nat → Nat) (xoshiro : List Nat → Rng) (seed : Nat)
    (g : GeneratorType) (s : SolverType) (rows cols : Nat) (params : GeneratorParams)
    (fuel bs count : Nat) : List (Nat × Option (Maze × Solution)) :=
  (batchStarts bs count).flatMap fun b =>
    (batchInstances bs count b).map fun i =>
      (i, runInstance H xoshiro seed g s rows cols params fuel i)

/-- A concrete digest stand-in (a test input for the abstract hasher). -/
def sumHash (l : List Nat) : Nat := l.foldl (fun a b => a + b) 0

/-- A concrete stream constructor stand-in (a test input for the abstract
xoshiro seeder). -/
def sumStream (l : List Nat) : Rng := { seq := fun i => i + sumHash l, pos := 0 }

/-- The start/goal invariant claimed for the generators: distinct, in-bounds
floor cells. -/
def StartGoalValid (m : Maze) : Prop :=
  m.start ≠ m.goal ∧
    m.start.1 < m.cols ∧ m.start.2 < m.rows ∧
    m.get_cell m.start.1 m.start.2 = true ∧
    m.goal.1 < m.cols ∧ m.goal.2 < m.rows ∧
    m.get_cell m.goal.1 m.goal.2 = true

/-- The all-zero random stream (a concrete test input). -/
def zeroRng : Rng := { seq := fun _ => 0, pos := 0 }

/-- Generator parameters whose coverage target is the whole grid (coverage
`1.0`, a concrete test input). -/
def fullCoverage : GeneratorParams :=
  { coverageTarget := fun t => t, coverageTarget_le := fun t => Nat.le_refl t }

/-- Concrete 1×2 maze, both cells floor, start (0,0), goal (1,0). -/
def maze1x2 : Maze :=
  { grid := [3], start := (0, 0), goal := (1, 0), rows := 1, cols := 2, cols_bytes := 1 }

/-- Concrete 1×2 maze whose start cell (0,0) is a wall; only (1,0) is floor. -/
def maze1x2WallStart : Maze :=
  { grid := [2], start := (0, 0), goal := (1, 0), rows := 1, cols := 2, cols_bytes := 1 }

/-! ## Supporting lemmas -/

/-- `AStarNode.cmp` characterization: a node compares greater (pops first)
exactly when its `(f, g)` key is lexicographically smaller. -/
theorem AStarNode.cmp_eq_gt (a b : AStarNode) :
    a.cmp b = Ordering.gt ↔
      (a.f_score < b.f_score ∨ (a.f_score = b.f_score ∧ a.g_score < b.g_score)) := by
  unfold AStarNode.cmp
  rcases Nat.lt_trichotomy a.f_score b.f_score with h | h | h
  · rw [Nat.compare_eq_gt.mpr h]
    simp [Ordering.then]
    exact Or.inl h
  · rw [Nat.compare_eq_eq.mpr h.symm]
    simp only [Ordering.then, Nat.compare_eq_gt]
    constructor
    · intro hg; exact Or.inr ⟨h, hg⟩
    · rintro (hf | ⟨-, hg⟩)
      · omega
      · exact hg
  · rw [Nat.compare_eq_lt.mpr h]
    simp [Ordering.then]
    omega

/-- `AStarNode.cmp` characterization of `lt`. -/
theorem AStarNode.cmp_eq_lt (a b : AStarNode) :
    a.cmp b = Ordering.lt ↔
      (b.f_score < a.f_score ∨ (b.f_score = a.f_score ∧ b.g_score < a.g_score)) := by
  unfold AStarNode.cmp
  rcases Nat.lt_trichotomy a.f_score b.f_score with h | h | h
  · rw [Nat.compare_eq_gt.mpr h]
    simp [Ordering.then]
    omega
  · rw [Nat.compare_eq_eq.mpr h.symm]
    simp only [Ordering.then, Nat.compare_eq_lt]
    constructor
    · intro hg; exact Or.inr ⟨h.symm, hg⟩
    · rintro (hf | ⟨-, hg⟩)
      · omega
      · exact hg
  · rw [Nat.compare_eq_lt.mpr h]
    simp [Ordering.then]
    exact Or.inl h

/-- `popMaxAux` removes exactly one occurrence of the returned node. -/
theorem popMaxAux_perm (t : List AStarNode) :
    ∀ a, (a :: t).Perm ((popMaxAux a t).1 :: (popMaxAux a t).2) := by
  induction t with
  | nil => intro a; exact List.Perm.refl _
  | cons b t ih =>
    intro a
    rw [popMaxAux]
    split
    · exact ((ih b).cons a).trans (List.Perm.swap _ a _)
    · exact List.Perm.refl _

/-- The node returned by `popMaxAux` is maximal under `AStarNode.cmp`. -/
theorem popMaxAux_max (t : List AStarNode) :
    ∀ a, ∀ m ∈ a :: t, AStarNode.cmp m (popMaxAux a t).1 ≠ Ordering.gt := by
  induction t with
  | nil =>
    intro a m hm hgt
    simp only [List.mem_singleton] at hm
    subst hm
    rw [popMaxAux] at hgt
    dsimp only at hgt
    rw [AStarNode.cmp_eq_gt] at hgt
    omega
  | cons b t ih =>
    intro a m hm hgt
    rw [popMaxAux] at hgt
    by_cases hab : AStarNode.cmp a (popMaxAux b t).1 = Ordering.lt
    · rw [if_pos hab] at hgt
      dsimp only at hgt
      rcases List.mem_cons.mp hm with rfl | hmt
      · rw [AStarNode.cmp_eq_gt] at hgt
        rw [AStarNode.cmp_eq_lt] at hab
        omega
      · exact ih b m hmt hgt
    · rw [if_neg hab] at hgt
      dsimp only at hgt
      rcases List.mem_cons.mp hm with rfl | hmt
      · rw [AStarNode.cmp_eq_gt] at hgt
        omega
      · have h1 := ih b m hmt
        rw [AStarNode.cmp_eq_gt] at hgt
        rw [AStarNode.cmp_eq_lt] at hab
        rw [Ne, AStarNode.cmp_eq_gt] at h1
        omega

/-- `popMax` removes exactly one occurrence of the returned node. -/
theorem popMax_perm {l : List AStarNode} {n : AStarNode} {rest : List AStarNode}
    (h : popMax l = some (n, rest)) : l.Perm (n :: rest) := by
  cases l with
  | nil => simp [popMax] at h
  | cons a t =>
    rw [popMax, Option.some.injEq] at h
    have := popMaxAux_perm t a
    rw [h] at this
    exact this

/-- The node returned by `popMax` is maximal under `AStarNode.cmp`. -/
theorem popMax_max {l : List AStarNode} {n : AStarNode} {rest : List AStarNode}
    (h : popMax l = some (n, rest)) :
    ∀ m ∈ l, AStarNode.cmp m n ≠ Ordering.gt := by
  cases l with
  | nil => simp [popMax] at h
  | cons a t =>
    rw [popMax, Option.some.injEq] at h
    intro m hm
    have := popMaxAux_max t a m hm
    rw [h] at this
    exact this

/-- Row-major cell indices of in-bounds cells are below the cell count. -/
theorem idx_lt_total {cols rows x y : Nat} (hx : x < cols) (hy : y < rows) :
    y * cols + x < rows * cols := by
  calc y * cols + x < y * cols + cols := by omega
    _ = (y + 1) * cols := by ring
    _ ≤ rows * cols := Nat.mul_le_mul_right _ (by omega)

/-- Decoding the column from a row-major index. -/
theorem idx_mod {cols x y : Nat} (hx : x < cols) : (y * cols + x) % cols = x := by
  rw [Nat.mul_comm, Nat.mul_add_mod, Nat.mod_eq_of_lt hx]

/-- Decoding the row from a row-major index. -/
theorem idx_div {cols x y : Nat} (hx : x < cols) : (y * cols + x) / cols = y := by
  rw [Nat.mul_comm, Nat.mul_add_div (by omega), Nat.div_eq_of_lt hx]
  omega

/-- Row-major indexing is injective on in-bounds cells. -/
theorem idx_inj {cols x y x' y' : Nat} (hx : x < cols) (hx' : x' < cols)
    (h : y * cols + x = y' * cols + x') : x = x' ∧ y = y' := by
  have m1 := @idx_mod cols x y hx
  have m2 := @idx_mod cols x' y' hx'
  have d1 := @idx_div cols x y hx
  have d2 := @idx_div cols x' y' hx'
  rw [h] at m1 d1
  exact ⟨m1.symm.trans m2, d1.symm.trans d2⟩

/-- `countClose` distributes over append. -/
theorem countClose_append (x y : Nat) (t1 t2 : List ReasoningEvent) :
    countClose x y (t1 ++ t2) = countClose x y t1 + countClose x y t2 :=
  List.countP_append _ _ _

/-- A single *close* event for the same cell counts once. -/
theorem countClose_close_self (x y g h : Nat) :
    countClose x y [ReasoningEvent.close x y g h] = 1 := by
  simp [countClose, isCloseFor, List.countP_cons]

/-- A single *close* event for a different cell does not count. -/
theorem countClose_close_other {a b x y : Nat} (hne : (a, b) ≠ (x, y)) (g h : Nat) :
    countClose x y [ReasoningEvent.close a b g h] = 0 := by
  have : ¬(a = x ∧ b = y) := by
    intro ⟨h1, h2⟩; exact hne (by rw [h1, h2])
  simp only [countClose, isCloseFor, List.countP_cons, List.countP_nil]
  split <;> rename_i hcond
  · rw [Bool.and_eq_true, beq_iff_eq, beq_iff_eq] at hcond
    exact absurd hcond this
  · rfl

/-- A *create* event never counts as a close. -/
theorem countClose_create (x y a b g h : Nat) :
    countClose x y [ReasoningEvent.create a b g h] = 0 := by
  simp [countClose, isCloseFor, List.countP_cons]

/-- The empty trace satisfies the create-before-close ordering. -/
theorem prec_nil (s : Nat × Nat) : CreatePrecedesClose s [] := by
  intro i x y g h hi
  simp at hi

/-- Appending a *create* event preserves the create-before-close ordering. -/
theorem prec_append_create {s : Nat × Nat} {tr : List ReasoningEvent}
    (hp : CreatePrecedesClose s tr) (a b g h : Nat) :
    CreatePrecedesClose s (tr ++ [ReasoningEvent.create a b g h]) := by
  intro i x y g0 h0 hi hneq
  rcases Nat.lt_or_ge i tr.length with hlt | hge
  · rw [List.getElem?_append, if_pos hlt] at hi
    obtain ⟨j, g', h', hj, hjget⟩ := hp i x y g0 h0 hi hneq
    refine ⟨j, g', h', hj, ?_⟩
    rw [List.getElem?_append, if_pos (lt_trans hj hlt)]
    exact hjget
  · rw [List.getElem?_append_right hge] at hi
    cases hd : i - tr.length with
    | zero => rw [hd] at hi; simp at hi
    | succ k => rw [hd] at hi; simp at hi

/-- Appending a *close* event for a cell that (unless it is the start) already
has a *create* event preserves the create-before-close ordering. -/
theorem prec_append_close {s : Nat × Nat} {tr : List ReasoningEvent}
    (hp : CreatePrecedesClose s tr) {x y : Nat}
    (hc : (x, y) ≠ s → ∃ g' h', ReasoningEvent.create x y g' h' ∈ tr) (g h : Nat) :
    CreatePrecedesClose s (tr ++ [ReasoningEvent.close x y g h]) := by
  intro i a b g0 h0 hi hneq
  rcases Nat.lt_or_ge i tr.length with hlt | hge
  · rw [List.getElem?_append, if_pos hlt] at hi
    obtain ⟨j, g', h', hj, hjget⟩ := hp i a b g0 h0 hi hneq
    refine ⟨j, g', h', hj, ?_⟩
    rw [List.getElem?_append, if_pos (lt_trans hj hlt)]
    exact hjget
  · rw [List.getElem?_append_right hge] at hi
    cases hd : i - tr.length with
    | succ k => rw [hd] at hi; simp at hi
    | zero =>
      rw [hd] at hi
      simp only [List.getElem?_cons_zero, Option.some.injEq] at hi
      obtain ⟨rfl, rfl, rfl, rfl⟩ := ReasoningEvent.close.inj hi.symm
      obtain ⟨g', h', hmem⟩ := hc hneq
      obtain ⟨j, hjlt, hjget⟩ := List.getElem_of_mem hmem
      refine ⟨j, g', h', by omega, ?_⟩
      rw [List.getElem?_append, if_pos hjlt, List.getElem?_eq_getElem hjlt, hjget]

/-- The masked-bit test used by `get_cell` is `Nat.testBit`. -/
theorem and_shiftLeft_bne_zero (b i : Nat) :
    (b &&& (1 <<< i) != 0) = b.testBit i := by
  rw [Nat.shiftLeft_eq, one_mul, Nat.and_two_pow]
  cases h : b.testBit i <;> simp [h, Nat.pow_eq_zero]

/-- A row holds `cols` cells inside `(cols + 7) / 8` bytes. -/
theorem lt_cols_div_lt_bytes {x cols : Nat} (hx : x < cols) : x / 8 < (cols + 7) / 8 := by
  have h1 := Nat.div_add_mod (cols + 7) 8
  have h2 : (cols + 7) % 8 < 8 := Nat.mod_lt _ (by norm_num)
  have h3 : x / 8 * 8 ≤ x := Nat.div_mul_le_self x 8
  have h4 := Nat.div_add_mod x 8
  have h5 : x % 8 < 8 := Nat.mod_lt _ (by norm_num)
  omega

/-- Distinct in-bounds cells map to distinct (byte, bit) positions in the
row-major packing. -/
theorem packing_injective {cols rows cb x y x' y' : Nat} (hcb : cb = (cols + 7) / 8)
    (hx : x < cols) (_hy : y < rows) (hx' : x' < cols) (_hy' : y' < rows)
    (hbyte : y' * cb + x' / 8 = y * cb + x / 8) (hbit : x' % 8 = x % 8) :
    x' = x ∧ y' = y := by
  have hq : x / 8 < cb := hcb ▸ lt_cols_div_lt_bytes hx
  have hq' : x' / 8 < cb := hcb ▸ lt_cols_div_lt_bytes hx'
  have hy2 : y' = y := by
    have e1 : (y' * cb + x' / 8) / cb = y' := by
      rw [Nat.mul_comm y' cb, Nat.mul_add_div (by omega), Nat.div_eq_of_lt hq']
      omega
    have e2 : (y * cb + x / 8) / cb = y := by
      rw [Nat.mul_comm y cb, Nat.mul_add_div (by omega), Nat.div_eq_of_lt hq]
      omega
    rw [← e1, ← e2, hbyte]
  have hx2 : x' / 8 = x / 8 := by
    have := hbyte
    rw [hy2] at this
    omega
  have d1 := Nat.div_add_mod x 8
  have d2 := Nat.div_add_mod x' 8
  omega

/-- Master read-after-write lemma for the packed bitset: on a well-formed
maze, `set_cell` writes exactly the addressed cell and disturbs no other. -/
theorem set_get_frame (m : Maze) (hwf : m.wf) (x y : Nat) (v : Bool)
    (hx : x < m.cols) (hy : y < m.rows) (x' y' : Nat)
    (hx' : x' < m.cols) (hy' : y' < m.rows) :
    (m.set_cell x y v).get_cell x y = v ∧
      ((x', y') ≠ (x, y) → (m.set_cell x y v).get_cell x' y' = m.get_cell x' y') := by
  obtain ⟨hcb, hlen⟩ := hwf
  have hcond : ¬(m.cols ≤ x ∨ m.rows ≤ y) := by omega
  have hcond' : ¬(m.cols ≤ x' ∨ m.rows ≤ y') := by omega
  have hbi : y * m.cols_bytes + x / 8 < m.grid.length := by
    have hqx : x / 8 < m.cols_bytes := hcb ▸ lt_cols_div_lt_bytes hx
    rw [hlen]
    calc y * m.cols_bytes + x / 8 < y * m.cols_bytes + m.cols_bytes := by omega
      _ = (y + 1) * m.cols_bytes := by ring
      _ ≤ m.rows * m.cols_bytes := Nat.mul_le_mul_right _ (by omega)
  have h255 : (255 : Nat) = 2 ^ 8 - 1 := by norm_num
  have hm8 : x % 8 < 8 := Nat.mod_lt _ (by norm_num)
  have hm8' : x' % 8 < 8 := Nat.mod_lt _ (by norm_num)
  have h255t : ∀ j, j < 8 → Nat.testBit 255 j = true := by decide
  simp only [Maze.set_cell, Maze.get_cell, if_neg hcond, if_neg hcond']
  constructor
  · rw [List.getD_eq_getElem?_getD, List.getElem?_set_self hbi, Option.getD_some,
      and_shiftLeft_bne_zero]
    cases v
    · simp only [Bool.false_eq_true, if_false, Nat.shiftLeft_eq, one_mul]
      simp [Nat.testBit_and, Nat.testBit_xor, Nat.testBit_two_pow_self, h255t _ hm8]
    · simp only [if_true, Nat.shiftLeft_eq, one_mul]
      simp [Nat.testBit_or, Nat.testBit_two_pow_self]
  · intro hne
    by_cases hbeq : y' * m.cols_bytes + x' / 8 = y * m.cols_bytes + x / 8
    · have hbit : x' % 8 ≠ x % 8 := by
        intro hb
        obtain ⟨e1, e2⟩ := packing_injective hcb hx hy hx' hy' hbeq hb
        exact hne (by rw [e1, e2])
      rw [hbeq, List.getD_eq_getElem?_getD, List.getElem?_set_self hbi, Option.getD_some,
        List.getD_eq_getElem?_getD, and_shiftLeft_bne_zero, and_shiftLeft_bne_zero]
      cases v
      · simp only [Bool.false_eq_true, if_false, Nat.shiftLeft_eq, one_mul]
        simp [Nat.testBit_and, Nat.testBit_xor,
          Nat.testBit_two_pow_of_ne (fun h => hbit h.symm), h255t _ hm8']
      · simp only [if_true, Nat.shiftLeft_eq, one_mul]
        simp [Nat.testBit_or, Nat.testBit_two_pow_of_ne (fun h => hbit h.symm)]
    · rw [List.getD_eq_getElem?_getD,
        List.getElem?_set_ne (fun h => hbeq h.symm),
        ← List.getD_eq_getElem?_getD]


/-! ## Invariant lemmas for the A* search loop -/

/-- The initial solver state satisfies the search invariant. -/
theorem searchinv_init (maze : Maze)
    (hsx : maze.start.1 < maze.cols) (hsy : maze.start.2 < maze.rows)
    (hsmall : maze.rows * maze.cols < cfMAX) :
    SearchInv maze (solveInit maze) := by
  refine
    { start_inb := ⟨hsx, hsy⟩
      small := hsmall
      start_g := by
        show (if maze.start.2 * maze.cols + maze.start.1 =
            maze.start.2 * maze.cols + maze.start.1 then 0 else gMAX) = 0
        rw [if_pos rfl]
      start_cf := rfl
      open_ok := ?_
      open_best := ?_
      g_le_max := ?_
      cf_graph := ?_
      closed_cf := ?_
      close_count := ?_
      prec := by
        intro i x y g h hi
        simp [solveInit] at hi }
  · intro n hn
    simp only [solveInit, List.mem_singleton] at hn
    subst hn
    refine ⟨hsx, hsy, ?_, by norm_num [gMAX], ?_, Or.inl rfl, Or.inl rfl⟩
    · show (if maze.start.2 * maze.cols + maze.start.1 =
          maze.start.2 * maze.cols + maze.start.1 then 0 else gMAX) ≤ 0
      rw [if_pos rfl]
    · dsimp only
      omega
  · intro x y hx hy _ hglt
    by_cases hidx : y * maze.cols + x = maze.start.2 * maze.cols + maze.start.1
    · obtain ⟨hx2, hy2⟩ := idx_inj hx hsx hidx
      refine ⟨⟨maze.start.1, maze.start.2, 0,
        manhattan_distance maze.start.1 maze.start.2 maze.goal.1 maze.goal.2⟩,
        by simp [solveInit], hx2.symm, hy2.symm, ?_⟩
      simp [solveInit, hidx]
    · exfalso
      simp only [solveInit] at hglt
      rw [if_neg hidx] at hglt
      exact absurd hglt (by norm_num)
  · intro i
    simp only [solveInit]
    split <;> norm_num [gMAX]
  · intro x y _ _ hcf
    exact absurd rfl hcf
  · intro x y _ _ hcl _
    exact absurd hcl (by simp [solveInit])
  · intro x y
    simp [solveInit, countClose]

/-- Popping a node whose cell is already closed (lazy deletion) preserves the
invariant. -/
theorem searchinv_skip {maze : Maze} {st : AStarState} {cur : AStarNode}
    {rest : List AStarNode}
    (hInv : SearchInv maze st) (hpop : popMax st.open_set = some (cur, rest))
    (hclosed : st.closed_set (cur.y * maze.cols + cur.x) = true) :
    SearchInv maze { st with open_set := rest } := by
  have hmem : ∀ m ∈ rest, m ∈ st.open_set := fun m hm =>
    (popMax_perm hpop).mem_iff.mpr (List.mem_cons_of_mem _ hm)
  refine
    { start_inb := hInv.start_inb
      small := hInv.small
      start_g := hInv.start_g
      start_cf := hInv.start_cf
      open_ok := fun n hn => hInv.open_ok n (hmem n hn)
      open_best := ?_
      g_le_max := hInv.g_le_max
      cf_graph := hInv.cf_graph
      closed_cf := hInv.closed_cf
      close_count := hInv.close_count
      prec := hInv.prec }
  intro x y hx hy hcl hglt
  obtain ⟨n, hn, hnx, hny, hng⟩ := hInv.open_best x y hx hy hcl hglt
  have hne : n ≠ cur := by
    intro he
    rw [he] at hnx hny
    rw [hnx, hny] at hclosed
    rw [hclosed] at hcl
    cases hcl
  rcases List.mem_cons.mp ((popMax_perm hpop).mem_iff.mp hn) with he | hr
  · exact absurd he hne
  · exact ⟨n, hr, hnx, hny, hng⟩

/-- A search-invariant state satisfies the weaker final invariant. -/
theorem searchinv_to_final {maze : Maze} {st : AStarState} (hInv : SearchInv maze st) :
    FinalInv maze st :=
  { start_g := hInv.start_g
    start_cf := hInv.start_cf
    cf_graph := hInv.cf_graph
    closed_cf := hInv.closed_cf
    close_le := fun x y => by rw [hInv.close_count x y]; split <;> omega
    prec := hInv.prec }

/-- Popping a non-closed node never yields a stale `g`: since lower-`f`
duplicates pop first, the popped node's `g_score` equals the cell's recorded
best `g`. -/
theorem stale_pop_g {maze : Maze} {st : AStarState} {cur : AStarNode}
    {rest : List AStarNode}
    (hInv : SearchInv maze st) (hpop : popMax st.open_set = some (cur, rest))
    (hnclosed : st.closed_set (cur.y * maze.cols + cur.x) = false) :
    st.g_scores (cur.y * maze.cols + cur.x) = cur.g_score := by
  have hcur : cur ∈ st.open_set := (popMax_perm hpop).mem_iff.mpr (List.mem_cons_self _ _)
  obtain ⟨hcx, hcy, hgle, hglt, hf, -, -⟩ := hInv.open_ok cur hcur
  rcases Nat.lt_or_ge (st.g_scores (cur.y * maze.cols + cur.x)) cur.g_score with hlt | hge
  · exfalso
    obtain ⟨n', hn', hnx, hny, hng⟩ := hInv.open_best cur.x cur.y hcx hcy hnclosed
      (lt_of_le_of_lt hgle hglt)
    obtain ⟨-, -, -, -, hf', -, -⟩ := hInv.open_ok n' hn'
    have hmax := popMax_max hpop n' hn'
    rw [Ne, AStarNode.cmp_eq_gt] at hmax
    rw [hnx, hny] at hf'
    omega
  · omega

/-- Closing a freshly popped non-goal node (emit the *close* event, move the
heap remainder, set the closed flag) preserves the invariant. -/
theorem searchinv_close {maze : Maze} {st : AStarState} {cur : AStarNode}
    {rest : List AStarNode}
    (hInv : SearchInv maze st) (hpop : popMax st.open_set = some (cur, rest))
    (hnclosed : st.closed_set (cur.y * maze.cols + cur.x) = false) :
    SearchInv maze
      { open_set := rest
        g_scores := st.g_scores
        came_from := st.came_from
        closed_set := fun i => if i = cur.y * maze.cols + cur.x then true else st.closed_set i
        reasoning := st.reasoning ++ [ReasoningEvent.close cur.x cur.y cur.g_score
          (manhattan_distance cur.x cur.y maze.goal.1 maze.goal.2)] } := by
  have hmem : ∀ m ∈ rest, m ∈ st.open_set := fun m hm =>
    (popMax_perm hpop).mem_iff.mpr (List.mem_cons_of_mem _ hm)
  have hcur : cur ∈ st.open_set := (popMax_perm hpop).mem_iff.mpr (List.mem_cons_self _ _)
  obtain ⟨hcx, hcy, -, -, -, hcreate, hcfcur⟩ := hInv.open_ok cur hcur
  refine
    { start_inb := hInv.start_inb
      small := hInv.small
      start_g := hInv.start_g
      start_cf := hInv.start_cf
      open_ok := ?_
      open_best := ?_
      g_le_max := hInv.g_le_max
      cf_graph := ?_
      closed_cf := ?_
      close_count := ?_
      prec := prec_append_close hInv.prec
        (fun hne => hcreate.resolve_left hne) _ _ }
  · intro n hn
    obtain ⟨h1, h2, h3, h4, h5, h6, h7⟩ := hInv.open_ok n (hmem n hn)
    refine ⟨h1, h2, h3, h4, h5, ?_, h7⟩
    rcases h6 with h6 | ⟨g, hh, hm⟩
    · exact Or.inl h6
    · exact Or.inr ⟨g, hh, List.mem_append_left _ hm⟩
  · intro x y hx hy hcl hglt
    dsimp only at hcl
    have hsplit : y * maze.cols + x ≠ cur.y * maze.cols + cur.x ∧
        st.closed_set (y * maze.cols + x) = false := by
      by_cases hidx : y * maze.cols + x = cur.y * maze.cols + cur.x
      · rw [if_pos hidx] at hcl; cases hcl
      · rw [if_neg hidx] at hcl; exact ⟨hidx, hcl⟩
    obtain ⟨n, hn, hnx, hny, hng⟩ := hInv.open_best x y hx hy hsplit.2 hglt
    have hne : n ≠ cur := by
      intro he
      rw [he] at hnx hny
      exact hsplit.1 (by rw [hnx, hny])
    rcases List.mem_cons.mp ((popMax_perm hpop).mem_iff.mp hn) with he | hr
    · exact absurd he hne
    · exact ⟨n, hr, hnx, hny, hng⟩
  · intro x y hx hy hcf
    dsimp only at hcf ⊢
    obtain ⟨h1, h2, px, py, h3, h4, h5, h6, h7, h8⟩ := hInv.cf_graph x y hx hy hcf
    refine ⟨h1, h2, px, py, h3, h4, h5, h6, ?_, h8⟩
    split
    · rfl
    · exact h7
  · intro x y hx hy hcl hne
    dsimp only at hcl
    by_cases hidx : y * maze.cols + x = cur.y * maze.cols + cur.x
    · obtain ⟨hex, hey⟩ := idx_inj hx hcx hidx
      have hnes : (cur.x, cur.y) ≠ maze.start := by
        rw [← hex, ← hey]; exact hne
      rw [hidx]
      exact hcfcur.resolve_left hnes
    · rw [if_neg hidx] at hcl
      exact hInv.closed_cf x y hx hy hcl hne
  · intro x y
    dsimp only
    rw [countClose_append]
    by_cases hxy : (cur.x, cur.y) = (x, y)
    · obtain ⟨h1, h2⟩ := Prod.mk.injEq _ _ _ _ |>.mp hxy
      subst h1
      subst h2
      rw [countClose_close_self, hInv.close_count cur.x cur.y]
      rw [if_neg (by
        intro hcond
        rw [hnclosed] at hcond
        cases hcond.2.2)]
      rw [if_pos ⟨hcx, hcy, by rw [if_pos rfl]⟩]
    · rw [countClose_close_other hxy, Nat.add_zero, hInv.close_count x y]
      by_cases hinb : x < maze.cols ∧ y < maze.rows
      · have hidx : y * maze.cols + x ≠ cur.y * maze.cols + cur.x := by
          intro he
          obtain ⟨hex, hey⟩ := idx_inj hinb.1 hcx he
          exact hxy (by rw [hex, hey])
        rw [if_neg hidx]
      · rw [if_neg (fun h => hinb ⟨h.1, h.2.1⟩), if_neg (fun h => hinb ⟨h.1, h.2.1⟩)]

/-- A single neighbor-expansion step preserves the invariant, leaves the
closed set untouched, and keeps the just-closed cell's `g`. -/
theorem searchinv_expand {maze : Maze} {cx cy gcur : Nat} {st : AStarState} {d : Int × Int}
    (hd : d ∈ DIRECTIONS) (hInv : SearchInv maze st)
    (hcx : cx < maze.cols) (hcy : cy < maze.rows)
    (hclosed : st.closed_set (cy * maze.cols + cx) = true)
    (hg : st.g_scores (cy * maze.cols + cx) = gcur) :
    SearchInv maze
        (expandNeighbor maze maze.goal.1 maze.goal.2 cx cy gcur (cy * maze.cols + cx) st d) ∧
      (expandNeighbor maze maze.goal.1 maze.goal.2 cx cy gcur
          (cy * maze.cols + cx) st d).closed_set = st.closed_set ∧
      (expandNeighbor maze maze.goal.1 maze.goal.2 cx cy gcur
          (cy * maze.cols + cx) st d).g_scores (cy * maze.cols + cx) = gcur := by
  simp only [expandNeighbor]
  set nx := ((cx : Int) + d.1).toNat with hnxdef
  set ny := ((cy : Int) + d.2).toNat with hnydef
  split
  · exact ⟨hInv, rfl, hg⟩
  · rename_i hb
    push_neg at hb
    obtain ⟨hb1, hb2, hb3, hb4⟩ := hb
    have hnxc : nx < maze.cols := by omega
    have hnyc : ny < maze.rows := by omega
    split
    · exact ⟨hInv, rfl, hg⟩
    · rename_i hw
      rw [not_or, not_not] at hw
      obtain ⟨hfl, hncl⟩ := hw
      have hnclosed : st.closed_set (ny * maze.cols + nx) = false := by
        revert hncl
        cases st.closed_set (ny * maze.cols + nx) <;> simp
      split
      · rename_i htent
        have hnbne : ny * maze.cols + nx ≠ cy * maze.cols + cx := by
          intro he
          rw [he, hclosed] at hnclosed
          cases hnclosed
        have hnbstart : ny * maze.cols + nx ≠
            maze.start.2 * maze.cols + maze.start.1 := by
          intro he
          rw [he, hInv.start_g] at htent
          omega
        have hpairstart : (nx, ny) ≠ maze.start := by
          intro he
          have he1 : nx = maze.start.1 := by rw [← he]
          have he2 : ny = maze.start.2 := by rw [← he]
          exact hnbstart (by rw [he1, he2])
        have hcne : cy * maze.cols + cx < cfMAX :=
          lt_trans (idx_lt_total hcx hcy) hInv.small
        have hadj : adjacent (cx, cy) (nx, ny) := by
          have hd' : d = ((0 : Int), (-1 : Int)) ∨ d = ((1 : Int), (0 : Int)) ∨
              d = ((0 : Int), (1 : Int)) ∨ d = ((-1 : Int), (0 : Int)) := by
            simpa [DIRECTIONS] using hd
          rcases hd' with rfl | rfl | rfl | rfl <;> simp only [adjacent] <;> omega
        have hglemax := hInv.g_le_max (ny * maze.cols + nx)
        refine ⟨?_, rfl, ?_⟩
        swap
        · show (if cy * maze.cols + cx = ny * maze.cols + nx then gcur + 1
            else st.g_scores (cy * maze.cols + cx)) = gcur
          rw [if_neg (Ne.symm hnbne)]
          exact hg
        refine
          { start_inb := hInv.start_inb
            small := hInv.small
            start_g := ?_
            start_cf := ?_
            open_ok := ?_
            open_best := ?_
            g_le_max := ?_
            cf_graph := ?_
            closed_cf := ?_
            close_count := ?_
            prec := prec_append_create hInv.prec _ _ _ _ }
        · show (if maze.start.2 * maze.cols + maze.start.1 = ny * maze.cols + nx
            then gcur + 1
            else st.g_scores (maze.start.2 * maze.cols + maze.start.1)) = 0
          rw [if_neg (Ne.symm hnbstart)]
          exact hInv.start_g
        · show (if maze.start.2 * maze.cols + maze.start.1 = ny * maze.cols + nx
            then cy * maze.cols + cx
            else st.came_from (maze.start.2 * maze.cols + maze.start.1)) = cfMAX
          rw [if_neg (Ne.symm hnbstart)]
          exact hInv.start_cf
        · intro n hn
          rcases List.mem_cons.mp hn with rfl | hmem
          · refine ⟨hnxc, hnyc, ?_, by show gcur + 1 < gMAX; omega, rfl, ?_, ?_⟩
            · show (if ny * maze.cols + nx = ny * maze.cols + nx then gcur + 1
                else st.g_scores (ny * maze.cols + nx)) ≤ gcur + 1
              rw [if_pos rfl]
            · exact Or.inr ⟨gcur + 1, manhattan_distance nx ny maze.goal.1 maze.goal.2,
                List.mem_append_right _ (List.mem_singleton.mpr rfl)⟩
            · refine Or.inr ?_
              show (if ny * maze.cols + nx = ny * maze.cols + nx
                then cy * maze.cols + cx
                else st.came_from (ny * maze.cols + nx)) ≠ cfMAX
              rw [if_pos rfl]
              omega
          · obtain ⟨h1, h2, h3, h4, h5, h6, h7⟩ := hInv.open_ok n hmem
            refine ⟨h1, h2, ?_, h4, h5, ?_, ?_⟩
            · show (if n.y * maze.cols + n.x = ny * maze.cols + nx then gcur + 1
                else st.g_scores (n.y * maze.cols + n.x)) ≤ n.g_score
              by_cases hni : n.y * maze.cols + n.x = ny * maze.cols + nx
              · rw [if_pos hni]
                rw [hni] at h3
                omega
              · rw [if_neg hni]
                exact h3
            · rcases h6 with h6 | ⟨g0, h0, hm⟩
              · exact Or.inl h6
              · exact Or.inr ⟨g0, h0, List.mem_append_left _ hm⟩
            · rcases h7 with h7 | h7
              · exact Or.inl h7
              · refine Or.inr ?_
                show (if n.y * maze.cols + n.x = ny * maze.cols + nx
                  then cy * maze.cols + cx
                  else st.came_from (n.y * maze.cols + n.x)) ≠ cfMAX
                by_cases hni : n.y * maze.cols + n.x = ny * maze.cols + nx
                · rw [if_pos hni]; omega
                · rw [if_neg hni]; exact h7
        · intro x y hx hy hcl hglt
          dsimp only at hcl hglt
          by_cases hni : y * maze.cols + x = ny * maze.cols + nx
          · obtain ⟨hex, hey⟩ := idx_inj hx hnxc hni
            refine ⟨⟨nx, ny, gcur + 1,
              gcur + 1 + manhattan_distance nx ny maze.goal.1 maze.goal.2⟩,
              List.mem_cons_self _ _, hex.symm, hey.symm, ?_⟩
            show gcur + 1 = if y * maze.cols + x = ny * maze.cols + nx then gcur + 1
              else st.g_scores (y * maze.cols + x)
            rw [if_pos hni]
          · rw [if_neg hni] at hglt
            obtain ⟨n, hn, hnx2, hny2, hng⟩ := hInv.open_best x y hx hy hcl hglt
            refine ⟨n, List.mem_cons_of_mem _ hn, hnx2, hny2, ?_⟩
            show n.g_score = if y * maze.cols + x = ny * maze.cols + nx then gcur + 1
              else st.g_scores (y * maze.cols + x)
            rw [if_neg hni]
            exact hng
        · intro i
          show (if i = ny * maze.cols + nx then gcur + 1 else st.g_scores i) ≤ gMAX
          split
          · omega
          · exact hInv.g_le_max i
        · intro x y hx hy hcf
          dsimp only at hcf ⊢
          by_cases hni : y * maze.cols + x = ny * maze.cols + nx
          · obtain ⟨hex, hey⟩ := idx_inj hx hnxc hni
            subst hex
            subst hey
            refine ⟨hpairstart, hfl, cx, cy, hcx, hcy, ?_, hadj, hclosed, ?_⟩
            · rw [if_pos hni]
            · rw [if_pos hni, if_neg (Ne.symm hnbne), hg]
          · rw [if_neg hni] at hcf
            obtain ⟨h1, h2, px, py, h3, h4, h5, h6, h7, h8⟩ :=
              hInv.cf_graph x y hx hy hcf
            have hpredne : py * maze.cols + px ≠ ny * maze.cols + nx := by
              intro he
              rw [he, hnclosed] at h7
              cases h7
            refine ⟨h1, h2, px, py, h3, h4, ?_, h6, h7, ?_⟩
            · rw [if_neg hni]
              exact h5
            · rw [if_neg hni, if_neg hpredne]
              exact h8
        · intro x y hx hy hcl hne
          dsimp only at hcl ⊢
          by_cases hni : y * maze.cols + x = ny * maze.cols + nx
          · rw [if_pos hni]
            omega
          · rw [if_neg hni]
            exact hInv.closed_cf x y hx hy hcl hne
        · intro x y
          dsimp only
          rw [countClose_append, countClose_create, Nat.add_zero]
          exact hInv.close_count x y
      · exact ⟨hInv, rfl, hg⟩

/-- Folding the expansion over any sublist of the four directions preserves
the invariant. -/
theorem searchinv_expand_fold {maze : Maze} {cx cy gcur : Nat} :
    ∀ (l : List (Int × Int)), (∀ d ∈ l, d ∈ DIRECTIONS) → ∀ (st : AStarState),
      SearchInv maze st → cx < maze.cols → cy < maze.rows →
      st.closed_set (cy * maze.cols + cx) = true →
      st.g_scores (cy * maze.cols + cx) = gcur →
      SearchInv maze (l.foldl
        (expandNeighbor maze maze.goal.1 maze.goal.2 cx cy gcur (cy * maze.cols + cx)) st)
  | [], _, st, hInv, _, _, _, _ => hInv
  | d :: t, hl, st, hInv, hx, hy, hcl, hg => by
    rw [List.foldl_cons]
    obtain ⟨h1, h2, h3⟩ :=
      searchinv_expand (hl d (List.mem_cons_self _ _)) hInv hx hy hcl hg
    exact searchinv_expand_fold t (fun d' hd' => hl d' (List.mem_cons_of_mem _ hd')) _
      h1 hx hy (by rw [h2]; exact hcl) h3

/-- Popping a non-closed node and breaking at the goal yields a state
satisfying the final invariant (the close event is recorded but the closed
flag of the goal cell is never set). -/
theorem finalinv_break {maze : Maze} {st : AStarState} {cur : AStarNode}
    {rest : List AStarNode}
    (hInv : SearchInv maze st) (hpop : popMax st.open_set = some (cur, rest))
    (hnclosed : st.closed_set (cur.y * maze.cols + cur.x) = false) :
    FinalInv maze
      { open_set := rest
        g_scores := st.g_scores
        came_from := st.came_from
        closed_set := st.closed_set
        reasoning := st.reasoning ++ [ReasoningEvent.close cur.x cur.y cur.g_score
          (manhattan_distance cur.x cur.y maze.goal.1 maze.goal.2)] } := by
  have hcur : cur ∈ st.open_set := (popMax_perm hpop).mem_iff.mpr (List.mem_cons_self _ _)
  obtain ⟨hcx, hcy, -, -, -, hcreate, -⟩ := hInv.open_ok cur hcur
  refine
    { start_g := hInv.start_g
      start_cf := hInv.start_cf
      cf_graph := hInv.cf_graph
      closed_cf := hInv.closed_cf
      close_le := ?_
      prec := prec_append_close hInv.prec (fun hne => hcreate.resolve_left hne) _ _ }
  intro x y
  dsimp only
  rw [countClose_append, hInv.close_count x y]
  by_cases hxy : (cur.x, cur.y) = (x, y)
  · obtain ⟨h1, h2⟩ := Prod.ext_iff.mp hxy
    dsimp only at h1 h2
    subst h1
    subst h2
    rw [countClose_close_self]
    rw [if_neg (fun hcond => by
      rw [hnclosed] at hcond
      exact Bool.noConfusion hcond.2.2)]
  · rw [countClose_close_other hxy]
    split <;> omega

/-- Whenever the search loop returns, its final state satisfies the final
invariant. -/
theorem solveLoop_final {maze : Maze} :
    ∀ (fuel : Nat) (st st' : AStarState), SearchInv maze st →
      solveLoop maze maze.goal.1 maze.goal.2 fuel st = some st' →
      FinalInv maze st' := by
  intro fuel
  induction fuel with
  | zero => intro st st' _ h; simp [solveLoop] at h
  | succ n ih =>
    intro st st' hInv h
    rw [solveLoop] at h
    cases hpop : popMax st.open_set with
    | none =>
      rw [hpop] at h
      simp only [Option.some.injEq] at h
      rw [← h]
      exact searchinv_to_final hInv
    | some p =>
      obtain ⟨cur, rest⟩ := p
      rw [hpop] at h
      dsimp only at h
      split at h
      · rename_i hcl
        exact ih _ _ (searchinv_skip hInv hpop hcl) h
      · rename_i hcl
        have hnclosed : st.closed_set (cur.y * maze.cols + cur.x) = false := by
          revert hcl
          cases st.closed_set (cur.y * maze.cols + cur.x) <;> simp
        split at h
        · simp only [Option.some.injEq] at h
          rw [← h]
          exact finalinv_break hInv hpop hnclosed
        · have hcur : cur ∈ st.open_set :=
            (popMax_perm hpop).mem_iff.mpr (List.mem_cons_self _ _)
          obtain ⟨hcx, hcy, -, -, -, -, -⟩ := hInv.open_ok cur hcur
          have hInv2 := searchinv_close hInv hpop hnclosed
          have hg2 := stale_pop_g hInv hpop hnclosed
          exact ih _ _
            (searchinv_expand_fold DIRECTIONS (fun d hd => hd) _ hInv2 hcx hcy
              (by dsimp only; rw [if_pos rfl]) hg2) h

/-- Correctness of the reconstruction loop: under the final invariant,
starting from an in-bounds cell that is the start or has a set predecessor,
a returned list appends exactly the predecessor chain down to the start; its
length is the cell's recorded `g`, every chain cell is floor, and the
reversed chain prefixed with the start forms an `adjacent`-chain. -/
theorem reconstruct_spec {maze : Maze} {st : AStarState} (hfin : FinalInv maze st)
    (hsx : maze.start.1 < maze.cols) :
    ∀ (fuel c cx cy : Nat) (acc res : List (Nat × Nat)),
      cx < maze.cols → cy < maze.rows → c = cy * maze.cols + cx →
      (c = maze.start.2 * maze.cols + maze.start.1 ∨ st.came_from c ≠ cfMAX) →
      reconstructLoop maze.cols (maze.start.2 * maze.cols + maze.start.1)
        st.came_from fuel c acc = some res →
      ∃ l, res = acc ++ l ∧ l.length = st.g_scores c ∧
        (∀ p ∈ l, maze.get_cell p.1 p.2 = true) ∧
        (c ≠ maze.start.2 * maze.cols + maze.start.1 → l ≠ []) ∧
        ∀ tail, List.Chain' adjacent ((cx, cy) :: tail) →
          List.Chain' adjacent (maze.start :: (l.reverse ++ tail)) := by
  intro fuel
  induction fuel with
  | zero => intro c cx cy acc res _ _ _ _ h; simp [reconstructLoop] at h
  | succ n ih =>
    intro c cx cy acc res hx hy hc hroot h
    rw [reconstructLoop] at h
    by_cases hcs : c = maze.start.2 * maze.cols + maze.start.1
    · rw [if_pos hcs] at h
      simp only [Option.some.injEq] at h
      refine ⟨[], by rw [← h, List.append_nil], ?_, by simp,
        fun hne => absurd hcs hne, ?_⟩
      · simp only [List.length_nil]
        rw [hcs, hfin.start_g]
      · intro tail hchain
        obtain ⟨hex, hey⟩ := idx_inj hx hsx (hc.symm.trans hcs)
        simp only [List.reverse_nil, List.nil_append]
        have hse : maze.start = (cx, cy) := by
          rw [hex, hey]
        rw [hse]
        exact hchain
    · rw [if_neg hcs] at h
      have hcf : st.came_from c ≠ cfMAX := hroot.resolve_left hcs
      rw [if_neg hcf] at h
      have hxm : c % maze.cols = cx := by rw [hc]; exact idx_mod hx
      have hym : c / maze.cols = cy := by rw [hc]; exact idx_div hx
      rw [hxm, hym] at h
      obtain ⟨hne_start, hfloor, px, py, hpx, hpy, hcf_eq, hadj, hclosed_p, hgeq⟩ :=
        hfin.cf_graph cx cy hx hy (hc ▸ hcf)
      have hroot' : (py * maze.cols + px = maze.start.2 * maze.cols + maze.start.1 ∨
          st.came_from (py * maze.cols + px) ≠ cfMAX) := by
        by_cases hps : (px, py) = maze.start
        · left
          have h1 : px = maze.start.1 := by rw [← hps]
          have h2 : py = maze.start.2 := by rw [← hps]
          rw [h1, h2]
        · exact Or.inr (hfin.closed_cf px py hpx hpy hclosed_p hps)
      have hcfc : st.came_from c = py * maze.cols + px := by rw [hc]; exact hcf_eq
      rw [hcfc] at h
      obtain ⟨l', hres, hlen, hfl', -, hchain'⟩ :=
        ih (py * maze.cols + px) px py (acc ++ [(cx, cy)]) res hpx hpy rfl hroot' h
      refine ⟨(cx, cy) :: l', ?_, ?_, ?_, fun _ => by simp, ?_⟩
      · rw [hres, List.append_assoc, List.singleton_append]
      · simp only [List.length_cons]
        rw [hlen, hc, hgeq]
      · intro p hp
        rcases List.mem_cons.mp hp with rfl | hp'
        · exact hfloor
        · exact hfl' p hp'
      · intro tail hchain
        rw [List.reverse_cons, List.append_assoc, List.singleton_append]
        exact hchain' ((cx, cy) :: tail) (List.chain'_cons.mpr ⟨hadj, hchain⟩)

/-! ## Lemmas for the generators -/

theorem Maze.set_cell_rows (m : Maze) (x y : Nat) (v : Bool) :
    (m.set_cell x y v).rows = m.rows := by
  unfold Maze.set_cell; split <;> rfl

theorem Maze.set_cell_cols (m : Maze) (x y : Nat) (v : Bool) :
    (m.set_cell x y v).cols = m.cols := by
  unfold Maze.set_cell; split <;> rfl

theorem Maze.set_cell_cols_bytes (m : Maze) (x y : Nat) (v : Bool) :
    (m.set_cell x y v).cols_bytes = m.cols_bytes := by
  unfold Maze.set_cell; split <;> rfl

theorem Maze.set_cell_start (m : Maze) (x y : Nat) (v : Bool) :
    (m.set_cell x y v).start = m.start := by
  unfold Maze.set_cell; split <;> rfl

theorem Maze.set_cell_goal (m : Maze) (x y : Nat) (v : Bool) :
    (m.set_cell x y v).goal = m.goal := by
  unfold Maze.set_cell; split <;> rfl

theorem Maze.set_cell_wf {m : Maze} (h : m.wf) (x y : Nat) (v : Bool) :
    (m.set_cell x y v).wf := by
  obtain ⟨h1, h2⟩ := h
  unfold Maze.set_cell
  split
  · exact ⟨h1, h2⟩
  · exact ⟨h1, by simp [List.length_set, h2]⟩

theorem Maze.new_wf (rows cols : Nat) : (Maze.new rows cols).wf :=
  ⟨rfl, by simp [Maze.new]⟩

/-- `get_cell` of a maze that only had its `start`/`goal` reassigned. -/
theorem Maze.get_cell_with_start_goal (m : Maze) (s g : Nat × Nat) (x y : Nat) :
    ({ m with start := s, goal := g } : Maze).get_cell x y = m.get_cell x y := rfl

/-- Out-of-bounds reads are walls. -/
theorem Maze.get_cell_oob {m : Maze} {x y : Nat} (h : m.cols ≤ x ∨ m.rows ≤ y) :
    m.get_cell x y = false := by
  rw [Maze.get_cell, if_pos h]

/-- Read-after-write on a well-formed maze, all cases. -/
theorem get_set_cell {m : Maze} (hwf : m.wf) (x y : Nat) (v : Bool) (a b : Nat) :
    (m.set_cell x y v).get_cell a b =
      if a = x ∧ b = y ∧ x < m.cols ∧ y < m.rows then v else m.get_cell a b := by
  by_cases hin : x < m.cols ∧ y < m.rows
  · by_cases hab : a = x ∧ b = y
    · obtain ⟨rfl, rfl⟩ := hab
      rw [if_pos ⟨rfl, rfl, hin⟩]
      exact (set_get_frame m hwf a b v hin.1 hin.2 a b hin.1 hin.2).1
    · rw [if_neg (by tauto)]
      by_cases hain : a < m.cols ∧ b < m.rows
      · refine (set_get_frame m hwf x y v hin.1 hin.2 a b hain.1 hain.2).2 ?_
        intro he
        exact hab ⟨congrArg Prod.fst he, congrArg Prod.snd he⟩
      · rw [@Maze.get_cell_oob (m.set_cell x y v) a b
          (by rw [Maze.set_cell_cols, Maze.set_cell_rows]; omega)]
        rw [Maze.get_cell_oob (by omega)]
  · have hnoop : m.set_cell x y v = m := by
      rw [Maze.set_cell, if_pos (by omega)]
    rw [hnoop, if_neg (by tauto)]

/-- Setting a cell to floor never turns another floor cell back to wall. -/
theorem get_set_cell_true {m : Maze} (hwf : m.wf) {a b : Nat} (x y : Nat)
    (h : m.get_cell a b = true) : (m.set_cell x y true).get_cell a b = true := by
  rw [get_set_cell hwf]
  split <;> [rfl; exact h]

theorem mem_allCells {rows cols : Nat} {p : Nat × Nat} :
    p ∈ allCells rows cols ↔ p.1 < cols ∧ p.2 < rows := by
  obtain ⟨a, b⟩ := p
  simp only [allCells, List.mem_flatMap, List.mem_map, List.mem_range, Prod.mk.injEq]
  constructor
  · rintro ⟨y, hy, x, hx, rfl, rfl⟩
    exact ⟨hx, hy⟩
  · rintro ⟨ha, hb⟩
    exact ⟨b, hb, a, ha, rfl, rfl⟩

theorem nodup_allCells (rows cols : Nat) : (allCells rows cols).Nodup := by
  rw [allCells, List.nodup_flatMap]
  constructor
  · intro y _
    exact (List.nodup_range cols).map (fun a b hab => congrArg Prod.fst hab)
  · refine (List.nodup_range rows).imp ?_
    intro a b hab
    intro p hp hp'
    simp only [List.mem_map, List.mem_range] at hp hp'
    obtain ⟨x, -, rfl⟩ := hp
    obtain ⟨x', -, he⟩ := hp'
    have hba : b = a := congrArg Prod.snd he
    exact hab hba.symm

theorem length_allCells (rows cols : Nat) : (allCells rows cols).length = rows * cols := by
  rw [allCells, List.length_flatMap]
  have : List.map (List.length ∘ fun y => (List.range cols).map fun x => (x, y))
      (List.range rows) = List.replicate rows cols := by
    rw [show (List.length ∘ fun y => (List.range cols).map fun x => (x, y)) =
      Function.const Nat cols from ?_]
    · rw [List.map_const, List.length_range]
    · funext y
      simp
  rw [this, List.sum_replicate, smul_eq_mul]

/-- Pointwise form of the floor scan: `filterMap` of the conditional equals
`filter` of the mapped cells. -/
theorem filterMap_if_eq_filter_map {α β : Type} (g : α → β) (p : β → Bool) :
    ∀ l : List α,
      l.filterMap (fun x => if p (g x) then some (g x) else none) = (l.map g).filter p
  | [] => rfl
  | a :: l => by
    rw [List.filterMap_cons, List.map_cons, List.filter_cons]
    by_cases h : p (g a)
    · rw [if_pos h]
      simp only [h, if_true]
      rw [filterMap_if_eq_filter_map g p l]
    · rw [if_neg h]
      simp only [h, Bool.false_eq_true, if_false]
      rw [filterMap_if_eq_filter_map g p l]

theorem collectFloors_eq_filter (maze : Maze) :
    collectFloors maze =
      (allCells maze.rows maze.cols).filter (fun c => maze.get_cell c.1 c.2) := by
  rw [collectFloors, allCells, List.filter_flatMap]
  congr 1
  funext y
  exact filterMap_if_eq_filter_map (fun x => (x, y)) (fun c => maze.get_cell c.1 c.2) _

theorem mem_collectFloors {maze : Maze} {p : Nat × Nat} :
    p ∈ collectFloors maze ↔
      p.1 < maze.cols ∧ p.2 < maze.rows ∧ maze.get_cell p.1 p.2 = true := by
  rw [collectFloors_eq_filter, List.mem_filter, mem_allCells]
  tauto

theorem nodup_collectFloors (maze : Maze) : (collectFloors maze).Nodup := by
  rw [collectFloors_eq_filter]
  exact (nodup_allCells _ _).filter _

/-- Floor cells and wall cells partition the grid. -/
theorem collectFloors_length_add_walls (maze : Maze) :
    (collectFloors maze).length +
      (allCells maze.rows maze.cols).countP (fun c => !maze.get_cell c.1 c.2) =
      maze.rows * maze.cols := by
  rw [collectFloors_eq_filter, ← List.countP_eq_length_filter, ← length_allCells maze.rows
    maze.cols]
  have := List.length_eq_countP_add_countP (fun c : Nat × Nat => maze.get_cell c.1 c.2)
    (allCells maze.rows maze.cols)
  rw [this]
  congr 1
  apply List.countP_congr
  intro c _
  cases h : maze.get_cell c.1 c.2 <;> simp [h]

/-- Replacing one element and re-inserting it at the head is a permutation. -/
theorem set_perm_cons {α : Type} (t : List α) (k : Nat) (b x : α)
    (hk : t[k]? = some b) : (b :: t.set k x).Perm (x :: t) := by
  obtain ⟨hlt, hb⟩ := List.getElem?_eq_some.mp hk
  rw [List.set_eq_take_append_cons_drop, if_pos hlt]
  conv_rhs => rw [← List.take_append_drop k t, List.drop_eq_getElem_cons hlt, hb]
  refine ((List.perm_middle).cons b).trans ((List.Perm.swap x b _).trans ?_)
  exact (List.perm_middle.symm).cons x

/-- Swapping two in-range elements is a permutation. -/
theorem swap_set_perm {α : Type} : ∀ (l : List α) (i j : Nat) (a b : α),
    l[i]? = some a → l[j]? = some b → ((l.set i b).set j a).Perm l
  | [], i, _, _, _, hi, _ => by simp at hi
  | x :: t, 0, 0, a, b, hi, hj => by
    simp only [List.getElem?_cons_zero, Option.some.injEq] at hi hj
    subst hi
    subst hj
    exact List.Perm.refl _
  | x :: t, 0, j + 1, a, b, hi, hj => by
    simp only [List.getElem?_cons_zero, Option.some.injEq] at hi
    simp only [List.getElem?_cons_succ] at hj
    subst hi
    show (b :: t.set j x).Perm (x :: t)
    exact set_perm_cons t j b x hj
  | x :: t, i + 1, 0, a, b, hi, hj => by
    simp only [List.getElem?_cons_succ] at hi
    simp only [List.getElem?_cons_zero, Option.some.injEq] at hj
    subst hj
    show (a :: t.set i x).Perm (x :: t)
    exact set_perm_cons t i a x hi
  | x :: t, i + 1, j + 1, a, b, hi, hj => by
    simp only [List.getElem?_cons_succ] at hi hj
    show (x :: (t.set i b).set j a).Perm (x :: t)
    exact (swap_set_perm t i j a b hi hj).cons x

/-- `listSwap` is a permutation. -/
theorem listSwap_perm {α : Type} (l : List α) (i j : Nat) : (listSwap l i j).Perm l := by
  unfold listSwap
  split
  · rename_i a b hi hj
    exact swap_set_perm l i j a b hi hj
  · exact List.Perm.refl _

/-- The Fisher–Yates pass permutes the list. -/
theorem shuffleAux_perm {α : Type} : ∀ (n : Nat) (l : List α) (rng : Rng),
    (shuffleAux n l rng).1.Perm l
  | 0, l, _ => List.Perm.refl l
  | n + 1, l, rng => by
    rw [shuffleAux]
    split
    · exact List.Perm.refl _
    · rename_i j rng2 heq
      exact (shuffleAux_perm n _ rng2).trans (listSwap_perm l (n + 1) j)

/-- `shuffle` permutes the list. -/
theorem shuffle_perm {α : Type} (l : List α) (rng : Rng) : (shuffle l rng).1.Perm l :=
  shuffleAux_perm _ l rng

/-- A successful `gen_range` draw lies in the half-open range. -/
theorem Rng.gen_range_spec {r : Rng} {lo hi v : Nat} {r' : Rng}
    (h : r.gen_range lo hi = some (v, r')) : lo ≤ v ∧ v < hi := by
  rw [Rng.gen_range] at h
  split at h
  · rename_i hlt
    simp only [Option.some.injEq, Prod.mk.injEq] at h
    obtain ⟨rfl, -⟩ := h
    have := @Nat.mod_lt (r.seq r.pos) (hi - lo) (by omega)
    omega
  · simp at h

/-- The shared goal-resampling loop returns an in-range index different from
the start index. -/
theorem resampleGoal_spec {len s : Nat} :
    ∀ (fuel g : Nat) (rng : Rng) (g' : Nat) (rng' : Rng), g < len →
      resampleGoal len s fuel g rng = some (g', rng') → g' < len ∧ g' ≠ s := by
  intro fuel
  induction fuel with
  | zero =>
    intro g rng g' rng' hg h
    rw [resampleGoal] at h
    split at h
    · exact absurd h (by simp)
    · rename_i hne
      simp only [Option.some.injEq, Prod.mk.injEq] at h
      obtain ⟨rfl, -⟩ := h
      exact ⟨hg, hne⟩
  | succ n ih =>
    intro g rng g' rng' hg h
    rw [resampleGoal] at h
    split at h
    · cases hr : rng.gen_range 0 len with
      | none => rw [hr] at h; exact absurd h (by simp)
      | some p =>
        obtain ⟨v, rng2⟩ := p
        rw [hr] at h
        exact ih v rng2 g' rng' (Rng.gen_range_spec hr).2 h
    · rename_i hne
      simp only [Option.some.injEq, Prod.mk.injEq] at h
      obtain ⟨rfl, -⟩ := h
      exact ⟨hg, hne⟩

/-- The drunkard's-walk goal-resampling loop returns an in-range index,
different from the start index whenever there are at least two floors. -/
theorem resampleGoalGuarded_spec {len s : Nat} :
    ∀ (fuel g : Nat) (rng : Rng) (g' : Nat) (rng' : Rng), g < len →
      drunkards_walk.resampleGoalGuarded len s fuel g rng = some (g', rng') →
      g' < len ∧ (1 < len → g' ≠ s) := by
  intro fuel
  induction fuel with
  | zero =>
    intro g rng g' rng' hg h
    rw [drunkards_walk.resampleGoalGuarded] at h
    split at h
    · exact absurd h (by simp)
    · rename_i hne
      simp only [Option.some.injEq, Prod.mk.injEq] at h
      obtain ⟨rfl, -⟩ := h
      exact ⟨hg, fun hlen hgs => hne ⟨hgs, hlen⟩⟩
  | succ n ih =>
    intro g rng g' rng' hg h
    rw [drunkards_walk.resampleGoalGuarded] at h
    split at h
    · cases hr : rng.gen_range 0 len with
      | none => rw [hr] at h; exact absurd h (by simp)
      | some p =>
        obtain ⟨v, rng2⟩ := p
        rw [hr] at h
        exact ih v rng2 g' rng' (Rng.gen_range_spec hr).2 h
    · rename_i hne
      simp only [Option.some.injEq, Prod.mk.injEq] at h
      obtain ⟨rfl, -⟩ := h
      exact ⟨hg, fun hlen hgs => hne ⟨hgs, hlen⟩⟩

/-- The shared start/goal picker returns a maze whose start and goal are
distinct in-bounds floor cells; grid and dimensions are unchanged. -/
theorem pick_start_goal_spec {maze : Maze} {rng : Rng} {fuel : Nat} {m' : Maze}
    {rng' : Rng} (h : pick_start_goal maze rng fuel = some (m', rng')) :
    m'.start ≠ m'.goal ∧
      m'.start.1 < m'.cols ∧ m'.start.2 < m'.rows ∧
      m'.get_cell m'.start.1 m'.start.2 = true ∧
      m'.goal.1 < m'.cols ∧ m'.goal.2 < m'.rows ∧
      m'.get_cell m'.goal.1 m'.goal.2 = true := by
  rw [pick_start_goal] at h
  split at h
  · exact absurd h (by simp)
  · rename_i s rng1 h1
    split at h
    · exact absurd h (by simp)
    · rename_i g0 rng2 h2
      split at h
      · exact absurd h (by simp)
      · rename_i g rng3 h3
        simp only [Option.some.injEq, Prod.mk.injEq] at h
        obtain ⟨hm, -⟩ := h
        have hs : s < (collectFloors maze).length := (Rng.gen_range_spec h1).2
        obtain ⟨hgl, hgs⟩ := resampleGoal_spec fuel g0 rng2 g rng3
          (Rng.gen_range_spec h2).2 h3
        have hsmem := mem_collectFloors.mp
          (List.getD_eq_getElem _ (0, 0) hs ▸ List.getElem_mem hs)
        have hgmem := mem_collectFloors.mp
          (List.getD_eq_getElem _ (0, 0) hgl ▸ List.getElem_mem hgl)
        have hne : (collectFloors maze).getD s (0, 0) ≠
            (collectFloors maze).getD g (0, 0) := by
          rw [List.getD_eq_getElem _ _ hs, List.getD_eq_getElem _ _ hgl]
          intro he
          exact hgs (((nodup_collectFloors maze).getElem_inj_iff.mp he).symm)
        rw [← hm]
        exact ⟨hne, hsmem.1, hsmem.2.1, hsmem.2.2, hgmem.1, hgmem.2.1, hgmem.2.2⟩

/-- A DFS maze that generated successfully has valid start/goal. -/
theorem dfs_generate_valid {rng : Rng} {rows cols fuel : Nat} {m : Maze} {rng' : Rng}
    (h : dfs.generate rng rows cols fuel = some (m, rng')) : StartGoalValid m := by
  rw [dfs.generate] at h
  simp only at h
  repeat' split at h
  all_goals first
    | exact Option.noConfusion h
    | exact pick_start_goal_spec h

/-- A Kruskal maze that generated successfully has valid start/goal. -/
theorem kruskal_generate_valid {rng : Rng} {rows cols fuel : Nat} {m : Maze} {rng' : Rng}
    (h : kruskal.generate rng rows cols fuel = some (m, rng')) : StartGoalValid m := by
  rw [kruskal.generate] at h
  try simp only at h
  repeat' split at h
  all_goals first
    | exact Option.noConfusion h
    | exact pick_start_goal_spec h

/-- The drunkard's-walk carving loop preserves well-formedness and the
dimensions. -/
theorem drunkards_walk.walkLoop_pres {rows cols target : Nat} :
    ∀ (fuel : Nat) (maze : Maze) (rng : Rng) (x y carved : Nat) (m' : Maze) (rng' : Rng),
      maze.wf →
      drunkards_walk.walkLoop rows cols target fuel maze rng x y carved = some (m', rng') →
      m'.wf ∧ m'.rows = maze.rows ∧ m'.cols = maze.cols := by
  intro fuel
  induction fuel with
  | zero =>
    intro maze rng x y carved m' rng' hwf h
    exact Option.noConfusion h
  | succ n ih =>
    intro maze rng x y carved m' rng' hwf h
    rw [drunkards_walk.walkLoop] at h
    simp only at h
    split at h
    · split at h
      · obtain ⟨h1, h2⟩ := Prod.mk.injEq .. ▸ Option.some.inj h
        subst h1
        exact ⟨hwf, rfl, rfl⟩
      · split at h
        · exact Option.noConfusion h
        · rename_i i rng2 hgen
          split at h
          · obtain ⟨hwf', h1, h2⟩ := ih _ _ _ _ _ _ _ (Maze.set_cell_wf hwf _ _ _) h
            refine ⟨hwf', ?_, ?_⟩
            · rw [h1, Maze.set_cell_rows]
            · rw [h2, Maze.set_cell_cols]
          · exact ih _ _ _ _ _ _ _ hwf h
    · obtain ⟨h1, h2⟩ := Prod.mk.injEq .. ▸ Option.some.inj h
      subst h1
      exact ⟨hwf, rfl, rfl⟩

/-- The defensive patch loop: preserves well-formedness, dimensions and the
floor-list invariants, and reaches two floors when enough wall cells remain
in the scan list. -/
theorem drunkards_walk.patchLoop_spec :
    ∀ (cells : List (Nat × Nat)) (maze : Maze) (floors : List (Nat × Nat)),
      maze.wf → cells.Nodup →
      (∀ c ∈ cells, c.1 < maze.cols ∧ c.2 < maze.rows) →
      floors.Nodup →
      (∀ p ∈ floors, p.1 < maze.cols ∧ p.2 < maze.rows ∧
        maze.get_cell p.1 p.2 = true) →
      (drunkards_walk.patchLoop maze floors cells).1.wf ∧
      (drunkards_walk.patchLoop maze floors cells).1.cols = maze.cols ∧
      (drunkards_walk.patchLoop maze floors cells).1.rows = maze.rows ∧
      (drunkards_walk.patchLoop maze floors cells).2.Nodup ∧
      (∀ p ∈ (drunkards_walk.patchLoop maze floors cells).2,
        p.1 < maze.cols ∧ p.2 < maze.rows ∧
          (drunkards_walk.patchLoop maze floors cells).1.get_cell p.1 p.2 = true) ∧
      (2 ≤ floors.length + cells.countP (fun c => !maze.get_cell c.1 c.2) →
        2 ≤ (drunkards_walk.patchLoop maze floors cells).2.length) := by
  intro cells
  induction cells with
  | nil =>
    intro maze floors hwf _ _ hnd hmem
    exact ⟨hwf, rfl, rfl, hnd, hmem, fun hh => by simpa using hh⟩
  | cons c rest ih =>
    intro maze floors hwf hndc hbnd hnd hmem
    simp only [drunkards_walk.patchLoop]
    by_cases h2 : 2 ≤ floors.length
    · rw [if_pos h2]
      exact ⟨hwf, rfl, rfl, hnd, hmem, fun _ => h2⟩
    · rw [if_neg h2]
      by_cases hcb : maze.get_cell c.1 c.2 = true
      case neg =>
        have hc : maze.get_cell c.1 c.2 = false := Bool.eq_false_iff.mpr hcb
        rw [if_pos hcb]
        have hnotin : c ∉ floors := fun hcf => hcb (hmem c hcf).2.2
        obtain ⟨hcx, hcy⟩ := hbnd c (List.mem_cons_self c rest)
        have hwf' := Maze.set_cell_wf hwf c.1 c.2 true
        have hfl : (floors ++ [c]).Nodup := by
          rw [List.nodup_append]
          refine ⟨hnd, List.nodup_singleton c, ?_⟩
          intro a ha hain
          rw [List.mem_singleton] at hain
          exact hnotin (hain ▸ ha)
        have hmem' : ∀ p ∈ floors ++ [c],
            p.1 < (maze.set_cell c.1 c.2 true).cols ∧
              p.2 < (maze.set_cell c.1 c.2 true).rows ∧
              (maze.set_cell c.1 c.2 true).get_cell p.1 p.2 = true := by
          intro p hp
          rw [Maze.set_cell_cols, Maze.set_cell_rows]
          rcases List.mem_append.mp hp with hpf | hpc
          · obtain ⟨p1, p2, p3⟩ := hmem p hpf
            exact ⟨p1, p2, get_set_cell_true hwf c.1 c.2 p3⟩
          · rw [List.mem_singleton] at hpc
            subst hpc
            refine ⟨hcx, hcy, ?_⟩
            rw [get_set_cell hwf, if_pos ⟨rfl, rfl, hcx, hcy⟩]
        have hbnd' : ∀ p ∈ rest, p.1 < (maze.set_cell c.1 c.2 true).cols ∧
            p.2 < (maze.set_cell c.1 c.2 true).rows := by
          intro p hp
          rw [Maze.set_cell_cols, Maze.set_cell_rows]
          exact hbnd p (List.mem_cons_of_mem c hp)
        obtain ⟨i1, i2, i3, i4, i5, i6⟩ := ih (maze.set_cell c.1 c.2 true)
          (floors ++ [c]) hwf' hndc.of_cons hbnd' hfl hmem'
        have hcnt : rest.countP
            (fun p => !(maze.set_cell c.1 c.2 true).get_cell p.1 p.2) =
            rest.countP (fun p => !maze.get_cell p.1 p.2) := by
          apply List.countP_congr
          intro p hp
          have hpc : p ≠ c := fun he => (List.nodup_cons.mp hndc).1 (he ▸ hp)
          have : ¬ (p.1 = c.1 ∧ p.2 = c.2 ∧ c.1 < maze.cols ∧ c.2 < maze.rows) := by
            intro ⟨e1, e2, _⟩
            exact hpc (Prod.ext e1 e2)
          rw [get_set_cell hwf, if_neg this]
        refine ⟨i1, by rw [i2, Maze.set_cell_cols], by rw [i3, Maze.set_cell_rows],
          i4, ?_, ?_⟩
        · intro p hp
          obtain ⟨p1, p2, p3⟩ := i5 p hp
          rw [Maze.set_cell_cols] at p1
          rw [Maze.set_cell_rows] at p2
          exact ⟨p1, p2, p3⟩
        · intro hh
          apply i6
          rw [List.length_append, List.length_singleton, hcnt]
          rw [List.countP_cons] at hh
          simp [hc] at hh
          omega
      case pos =>
        rw [if_neg (not_not_intro hcb)]
        obtain ⟨i1, i2, i3, i4, i5, i6⟩ := ih maze floors hwf hndc.of_cons
          (fun p hp => hbnd p (List.mem_cons_of_mem c hp)) hnd hmem
        refine ⟨i1, i2, i3, i4, i5, ?_⟩
        intro hh
        apply i6
        rw [List.countP_cons] at hh
        simp [hcb] at hh
        omega

/-- Assigning start/goal from distinct indices of a duplicate-free list of
in-bounds floor cells yields a valid start/goal pair. -/
theorem start_goal_assign_spec {mz : Maze} {fl : List (Nat × Nat)} {si gi : Nat}
    (hnd : fl.Nodup)
    (hmem : ∀ p ∈ fl, p.1 < mz.cols ∧ p.2 < mz.rows ∧ mz.get_cell p.1 p.2 = true)
    (hs : si < fl.length) (hg : gi < fl.length) (hne : gi ≠ si) :
    StartGoalValid { mz with start := fl.getD si (0, 0), goal := fl.getD gi (0, 0) } := by
  have hsm := hmem _ (List.getD_eq_getElem fl (0, 0) hs ▸ List.getElem_mem hs)
  have hgm := hmem _ (List.getD_eq_getElem fl (0, 0) hg ▸ List.getElem_mem hg)
  have hnev : fl.getD si (0, 0) ≠ fl.getD gi (0, 0) := by
    rw [List.getD_eq_getElem _ _ hs, List.getD_eq_getElem _ _ hg]
    intro he
    exact hne ((hnd.getElem_inj_iff.mp he).symm)
  exact ⟨hnev, hsm.1, hsm.2.1, hsm.2.2, hgm.1, hgm.2.1, hgm.2.2⟩

/-- A drunkard's-walk maze that generated successfully on a grid with at
least two cells has valid start/goal. -/
theorem drunkards_generate_valid {rng : Rng} {rows cols : Nat}
    {params : GeneratorParams} {fuel : Nat} {m : Maze} {rng' : Rng}
    (htot : 2 ≤ rows * cols)
    (h : drunkards_walk.generate rng rows cols params fuel = some (m, rng')) :
    StartGoalValid m := by
  rw [drunkards_walk.generate] at h
  simp only at h
  split at h
  · exact Option.noConfusion h
  · rename_i x rng1 h1
    split at h
    · exact Option.noConfusion h
    · rename_i y rng2 h2
      split at h
      · exact Option.noConfusion h
      · rename_i mz rng3 hwalk
        obtain ⟨hwfz, hrowz, hcolz⟩ := drunkards_walk.walkLoop_pres fuel _ rng2 x y 1
          mz rng3 (Maze.set_cell_wf (Maze.new_wf rows cols) x y true) hwalk
        rw [Maze.set_cell_rows] at hrowz
        rw [Maze.set_cell_cols] at hcolz
        have hrows : mz.rows = rows := hrowz
        have hcols : mz.cols = cols := hcolz
        by_cases hflen : (collectFloors mz).length < 2
        · rw [if_pos hflen] at h
          have hbnd : ∀ c ∈ allCells rows cols, c.1 < mz.cols ∧ c.2 < mz.rows := by
            intro c hc
            obtain ⟨hc1, hc2⟩ := mem_allCells.mp hc
            exact ⟨hcols ▸ hc1, hrows ▸ hc2⟩
          obtain ⟨i1, i2, i3, i4, i5, i6⟩ := drunkards_walk.patchLoop_spec
            (allCells rows cols) mz (collectFloors mz) hwfz (nodup_allCells rows cols)
            hbnd (nodup_collectFloors mz) (fun p hp => mem_collectFloors.mp hp)
          have hwalls := collectFloors_length_add_walls mz
          rw [hrows, hcols] at hwalls
          have hlen2 : 2 ≤ (drunkards_walk.patchLoop mz (collectFloors mz)
              (allCells rows cols)).2.length := i6 (by omega)
          have hmem2 : ∀ p ∈ (drunkards_walk.patchLoop mz (collectFloors mz)
              (allCells rows cols)).2,
              p.1 < (drunkards_walk.patchLoop mz (collectFloors mz)
                (allCells rows cols)).1.cols ∧
              p.2 < (drunkards_walk.patchLoop mz (collectFloors mz)
                (allCells rows cols)).1.rows ∧
              (drunkards_walk.patchLoop mz (collectFloors mz)
                (allCells rows cols)).1.get_cell p.1 p.2 = true := by
            intro p hp
            obtain ⟨p1, p2, p3⟩ := i5 p hp
            exact ⟨i2 ▸ p1, i3 ▸ p2, p3⟩
          split at h
          · exact Option.noConfusion h
          · rename_i si rng4 h4
            split at h
            · exact Option.noConfusion h
            · rename_i g0 rng5 h5
              split at h
              · exact Option.noConfusion h
              · rename_i gi rng6 h6
                obtain ⟨hm, -⟩ := Prod.mk.injEq .. ▸ Option.some.inj h
                rw [← hm]
                obtain ⟨hgl, hgne⟩ := resampleGoalGuarded_spec fuel g0 rng5 gi rng6
                  (Rng.gen_range_spec h5).2 h6
                exact start_goal_assign_spec i4 hmem2 (Rng.gen_range_spec h4).2 hgl
                  (hgne (by omega))
        · rw [if_neg hflen] at h
          split at h
          · exact Option.noConfusion h
          · rename_i si rng4 h4
            split at h
            · exact Option.noConfusion h
            · rename_i g0 rng5 h5
              split at h
              · exact Option.noConfusion h
              · rename_i gi rng6 h6
                obtain ⟨hm, -⟩ := Prod.mk.injEq .. ▸ Option.some.inj h
                rw [← hm]
                obtain ⟨hgl, hgne⟩ := resampleGoalGuarded_spec fuel g0 rng5 gi rng6
                  (Rng.gen_range_spec h5).2 h6
                exact start_goal_assign_spec (nodup_collectFloors mz)
                  (fun p hp => mem_collectFloors.mp hp) (Rng.gen_range_spec h4).2 hgl
                  (hgne (by dsimp only; omega))

/-- A Wilson maze that generated successfully has valid start/goal. -/
theorem wilson_generate_valid {rng : Rng} {rows cols fuel : Nat} {m : Maze} {rng' : Rng}
    (h : wilson.generate rng rows cols fuel = some (m, rng')) : StartGoalValid m := by
  rw [wilson.generate] at h
  simp only at h
  repeat' split at h
  all_goals first
    | exact Option.noConfusion h
    | exact pick_start_goal_spec h

/-- The Searchformer passage-carving fold preserves well-formedness and the
dimensions. -/
theorem searchformer.carve_pres (cols : Nat) :
    ∀ (l : List Nat) (m : Maze), m.wf →
      (l.foldl (fun mz idx => mz.set_cell (idx % cols) (idx / cols) true) m).wf ∧
      (l.foldl (fun mz idx => mz.set_cell (idx % cols) (idx / cols) true) m).cols = m.cols ∧
      (l.foldl (fun mz idx => mz.set_cell (idx % cols) (idx / cols) true) m).rows = m.rows
  | [], _, hwf => ⟨hwf, rfl, rfl⟩
  | i :: t, m, hwf => by
    obtain ⟨w, c, r⟩ := searchformer.carve_pres cols t
      (m.set_cell (i % cols) (i / cols) true) (Maze.set_cell_wf hwf _ _ _)
    exact ⟨w, c.trans (Maze.set_cell_cols m _ _ _), r.trans (Maze.set_cell_rows m _ _ _)⟩

/-- The carving fold never turns a floor cell back into a wall. -/
theorem searchformer.carve_mono (cols : Nat) :
    ∀ (l : List Nat) (m : Maze), m.wf → ∀ (a b : Nat), m.get_cell a b = true →
      (l.foldl (fun mz idx => mz.set_cell (idx % cols) (idx / cols) true) m).get_cell
        a b = true
  | [], _, _, _, _, h => h
  | _ :: t, _, hwf, a, b, h =>
    searchformer.carve_mono cols t _ (Maze.set_cell_wf hwf _ _ _) a b
      (get_set_cell_true hwf _ _ h)

/-- Every in-bounds index carved by the fold decodes to a floor cell. -/
theorem searchformer.carve_mem (cols : Nat) :
    ∀ (l : List Nat) (m : Maze), m.wf → ∀ i ∈ l, i % cols < m.cols → i / cols < m.rows →
      (l.foldl (fun mz idx => mz.set_cell (idx % cols) (idx / cols) true) m).get_cell
        (i % cols) (i / cols) = true
  | [], _, _, i, hi, _, _ => absurd hi (List.not_mem_nil i)
  | j :: t, m, hwf, i, hi, hx, hy => by
    rcases List.mem_cons.mp hi with rfl | hit
    · apply searchformer.carve_mono cols t _ (Maze.set_cell_wf hwf _ _ _)
      rw [get_set_cell hwf, if_pos ⟨rfl, rfl, hx, hy⟩]
    · exact searchformer.carve_mem cols t _ (Maze.set_cell_wf hwf _ _ _) i hit
        (by rw [Maze.set_cell_cols]; exact hx) (by rw [Maze.set_cell_rows]; exact hy)

/-- A successful Searchformer placement returns a maze with valid
start/goal, given duplicate-free in-bounds floor free cells. -/
theorem searchformer.tryPlacements_spec {cols fuel minLen : Nat} :
    ∀ (k : Nat) (maze : Maze) (free_cells : List Nat) (rng : Rng) (m : Maze) (rng' : Rng),
      free_cells.Nodup →
      (∀ i ∈ free_cells, i % cols < maze.cols ∧ i / cols < maze.rows ∧
        maze.get_cell (i % cols) (i / cols) = true) →
      searchformer.tryPlacements cols fuel minLen k maze free_cells rng =
        some (some m, rng') →
      StartGoalValid m := by
  intro k
  induction k with
  | zero =>
    intro maze fc rng m rng' _ _ h
    rw [searchformer.tryPlacements] at h
    obtain ⟨hnone, -⟩ := Prod.mk.injEq .. ▸ Option.some.inj h
    exact Option.noConfusion hnone
  | succ n ih =>
    intro maze fc rng m rng' hnd hmem h
    rw [searchformer.tryPlacements] at h
    simp only at h
    have hperm := shuffle_perm fc rng
    have hnd1 : (shuffle fc rng).1.Nodup := hperm.nodup_iff.mpr hnd
    have hmem1 : ∀ i ∈ (shuffle fc rng).1, i % cols < maze.cols ∧
        i / cols < maze.rows ∧ maze.get_cell (i % cols) (i / cols) = true :=
      fun i hi => hmem i (hperm.mem_iff.mp hi)
    split at h
    · obtain ⟨hnone, -⟩ := Prod.mk.injEq .. ▸ Option.some.inj h
      exact Option.noConfusion hnone
    · rename_i hlen2
      split at h
      · exact Option.noConfusion h
      · rename_i sol hsol
        split at h
        · obtain ⟨hm, -⟩ := Prod.mk.injEq .. ▸ Option.some.inj h
          rw [← Option.some.inj hm]
          have h0 : 0 < (shuffle fc rng).1.length := by omega
          have h1 : 1 < (shuffle fc rng).1.length := by omega
          have hsmem := hmem1 _
            (List.getD_eq_getElem _ 0 h0 ▸ List.getElem_mem h0)
          have hgmem := hmem1 _
            (List.getD_eq_getElem _ 0 h1 ▸ List.getElem_mem h1)
          have hsg : (shuffle fc rng).1.getD 0 0 ≠ (shuffle fc rng).1.getD 1 0 := by
            rw [List.getD_eq_getElem _ _ h0, List.getD_eq_getElem _ _ h1]
            intro he
            exact absurd (hnd1.getElem_inj_iff.mp he) (by omega)
          refine ⟨?_, hsmem.1, hsmem.2.1, hsmem.2.2, hgmem.1, hgmem.2.1, hgmem.2.2⟩
          intro he
          rw [Prod.mk.injEq] at he
          obtain ⟨he1, he2⟩ := he
          apply hsg
          have d1 := Nat.div_add_mod ((shuffle fc rng).1.getD 0 0) cols
          have d2 := Nat.div_add_mod ((shuffle fc rng).1.getD 1 0) cols
          rw [he1, he2] at d1
          omega
        · refine ih _ _ _ _ _ hnd1 ?_ h
          intro i hi
          exact hmem1 i hi

/-- A successful Searchformer outer round returns a maze with valid
start/goal, given duplicate-free in-range indices. -/
theorem searchformer.outerLoop_spec {rows cols fuel : Nat} :
    ∀ (k : Nat) (indices : List Nat) (rng : Rng) (m : Maze) (rng' : Rng),
      indices.Nodup → (∀ i ∈ indices, i < rows * cols) →
      searchformer.outerLoop rows cols fuel k indices rng = some (m, rng') →
      StartGoalValid m := by
  intro k
  induction k with
  | zero =>
    intro indices rng m rng' _ _ h
    exact Option.noConfusion h
  | succ n ih =>
    intro indices rng m rng' hnd hbnd h
    rw [searchformer.outerLoop] at h
    simp only at h
    have hperm := shuffle_perm indices rng
    have hnd1 : (shuffle indices rng).1.Nodup := hperm.nodup_iff.mpr hnd
    have hbnd1 : ∀ i ∈ (shuffle indices rng).1, i < rows * cols :=
      fun i hi => hbnd i (hperm.mem_iff.mp hi)
    split at h
    · exact Option.noConfusion h
    · rename_i nw rng2 hdraw
      have hndp : ((shuffle indices rng).1.drop nw).Nodup :=
        hnd1.sublist (List.drop_sublist nw (shuffle indices rng).1)
      have hwf0 := Maze.new_wf rows cols
      obtain ⟨hwfc, hcolc, hrowc⟩ := searchformer.carve_pres cols
        ((shuffle indices rng).1.drop nw) (Maze.new rows cols) hwf0
      have hmemp : ∀ i ∈ (shuffle indices rng).1.drop nw,
          i % cols < (((shuffle indices rng).1.drop nw).foldl
            (fun mz idx => mz.set_cell (idx % cols) (idx / cols) true)
            (Maze.new rows cols)).cols ∧
          i / cols < (((shuffle indices rng).1.drop nw).foldl
            (fun mz idx => mz.set_cell (idx % cols) (idx / cols) true)
            (Maze.new rows cols)).rows ∧
          (((shuffle indices rng).1.drop nw).foldl
            (fun mz idx => mz.set_cell (idx % cols) (idx / cols) true)
            (Maze.new rows cols)).get_cell (i % cols) (i / cols) = true := by
        intro i hi
        have hilt : i < rows * cols := hbnd1 i (List.mem_of_mem_drop hi)
        have hcpos : 0 < cols := by
          rcases Nat.eq_zero_or_pos cols with hc0 | hc
          · subst hc0
            simp at hilt
          · exact hc
        have hx : i % cols < cols := Nat.mod_lt i hcpos
        have hy : i / cols < rows := by
          rw [Nat.div_lt_iff_lt_mul hcpos]
          omega
        refine ⟨hcolc ▸ hx, hrowc ▸ hy, ?_⟩
        exact searchformer.carve_mem cols _ (Maze.new rows cols) hwf0 i hi hx hy
      split at h
      · exact Option.noConfusion h
      · rename_i m2 rng3 htry
        obtain ⟨hm, -⟩ := Prod.mk.injEq .. ▸ Option.some.inj h
        rw [← hm]
        exact searchformer.tryPlacements_spec 100 _ _ _ _ _ hndp hmemp htry
      · rename_i rng3 htry
        exact ih _ _ _ _ hnd1 hbnd1 h

/-- A Searchformer maze that generated successfully has valid start/goal. -/
theorem searchformer_generate_valid {rng : Rng} {rows cols fuel : Nat} {m : Maze}
    {rng' : Rng} (h : searchformer.generate rng rows cols fuel = some (m, rng')) :
    StartGoalValid m :=
  searchformer.outerLoop_spec fuel (List.range (rows * cols)) rng m rng'
    (List.nodup_range _) (fun _ hi => List.mem_range.mp hi) h

/-! ## Union-find lemmas (`kruskal.rs:7-54`) -/

theorem rootAux_zero (p : List Nat) (x : Nat) : rootAux 0 p x = x := rfl

theorem rootAux_succ (p : List Nat) (k x : Nat) :
    rootAux (k + 1) p x = if p.getD x 0 = x then x else rootAux k p (p.getD x 0) := rfl

/-- A fixpoint stays fixed under any number of steps. -/
theorem rootAux_fix (p : List Nat) {r : Nat} (h : p.getD r 0 = r) :
    ∀ k, rootAux k p r = r
  | 0 => rfl
  | k + 1 => by rw [rootAux_succ, if_pos h]

/-- Splitting the step count of `rootAux`. -/
theorem rootAux_add (p : List Nat) : ∀ (a b x : Nat),
    rootAux (a + b) p x = rootAux b p (rootAux a p x)
  | 0, b, x => by rw [Nat.zero_add]; rfl
  | a + 1, b, x => by
    rw [show a + 1 + b = a + b + 1 from by omega]
    by_cases hx : p.getD x 0 = x
    · have h1 : rootAux (a + b + 1) p x = x := by rw [rootAux_succ, if_pos hx]
      have h2 : rootAux (a + 1) p x = x := by rw [rootAux_succ, if_pos hx]
      rw [h1, h2, rootAux_fix p hx]
    · have h1 : rootAux (a + b + 1) p x = rootAux (a + b) p (p.getD x 0) := by
        rw [rootAux_succ, if_neg hx]
      have h2 : rootAux (a + 1) p x = rootAux a p (p.getD x 0) := by
        rw [rootAux_succ, if_neg hx]
      rw [h1, h2]
      exact rootAux_add p a b (p.getD x 0)

/-- Roots are unique. -/
theorem RootOf_unique {p : List Nat} {x r₁ r₂ : Nat}
    (h₁ : RootOf p x r₁) (h₂ : RootOf p x r₂) : r₁ = r₂ := by
  obtain ⟨k₁, hk₁, hr₁⟩ := h₁
  obtain ⟨k₂, hk₂, hr₂⟩ := h₂
  have e₁ : rootAux (k₁ + k₂) p x = r₁ := by rw [rootAux_add, hk₁, rootAux_fix p hr₁]
  have e₂ : rootAux (k₁ + k₂) p x = r₂ := by
    rw [Nat.add_comm, rootAux_add, hk₂, rootAux_fix p hr₂]
  exact e₁.symm.trans e₂

/-- A fixpoint is its own root. -/
theorem RootOf_self {p : List Nat} {r : Nat} (h : p.getD r 0 = r) : RootOf p r r :=
  ⟨0, rfl, h⟩

/-- Stepping to the parent preserves the root. -/
theorem RootOf_step {p : List Nat} {x r : Nat} (hx : p.getD x 0 ≠ x) :
    RootOf p x r ↔ RootOf p (p.getD x 0) r := by
  constructor
  · rintro ⟨k, hk, hr⟩
    cases k with
    | zero =>
      rw [rootAux_zero] at hk
      subst hk
      exact absurd hr hx
    | succ k =>
      rw [rootAux_succ, if_neg hx] at hk
      exact ⟨k, hk, hr⟩
  · rintro ⟨k, hk, hr⟩
    exact ⟨k + 1, by rw [rootAux_succ, if_neg hx]; exact hk, hr⟩

/-- The root of a fixpoint is itself. -/
theorem RootOf_root {p : List Nat} {x r : Nat} (hx : p.getD x 0 = x) :
    RootOf p x r ↔ r = x :=
  ⟨fun h => RootOf_unique h (RootOf_self hx), fun h => by rw [h]; exact RootOf_self hx⟩

/-- With in-range parent pointers, `rootAux` stays in range. -/
theorem rootAux_lt {p : List Nat} (hb : BoundedParent p) :
    ∀ (k x : Nat), x < p.length → rootAux k p x < p.length
  | 0, _, hx => hx
  | k + 1, x, hx => by
    rw [rootAux_succ]
    split
    · exact hx
    · exact rootAux_lt hb k _ (hb x hx)

/-- With in-range parent pointers, roots of in-range elements are in range. -/
theorem RootOf_lt {p : List Nat} (hb : BoundedParent p) {x r : Nat}
    (hx : x < p.length) (h : RootOf p x r) : r < p.length := by
  obtain ⟨k, hk, -⟩ := h
  exact hk ▸ rootAux_lt hb k x hx

/-- `getD` after `set` on a `Nat` list with default 0. -/
theorem getD_set_nat (p : List Nat) (x r i : Nat) :
    (p.set x r).getD i 0 = if i = x ∧ x < p.length then r else p.getD i 0 := by
  by_cases hix : i = x
  · subst hix
    by_cases hx : i < p.length
    · rw [List.getD_eq_getElem?_getD, List.getElem?_set_self hx, Option.getD_some,
        if_pos ⟨rfl, hx⟩]
    · rw [List.set_eq_of_length_le (Nat.le_of_not_lt hx), if_neg (fun hh => hx hh.2)]
  · rw [List.getD_eq_getElem?_getD, List.getElem?_set_ne (fun h => hix h.symm),
      ← List.getD_eq_getElem?_getD, if_neg (fun hh => hix hh.1)]

/-- Setting an in-range entry to its current value changes nothing. -/
theorem set_getD_self {p : List Nat} {x : Nat} (hx : x < p.length) :
    p.set x (p.getD x 0) = p := by
  apply List.ext_getElem?
  intro n
  by_cases hnx : n = x
  · subst hnx
    rw [List.getElem?_set_self hx, List.getD_eq_getElem?_getD,
      List.getElem?_eq_getElem hx, Option.getD_some]
  · rw [List.getElem?_set_ne (fun h => hnx h.symm)]

/-- Path compression: redirecting `x` straight to its root preserves every
root assignment. -/
theorem RootOf_set_compress {p : List Nat} {x r : Nat} (hR : RootOf p x r) :
    ∀ z w, RootOf (p.set x r) z w ↔ RootOf p z w := by
  obtain ⟨k0, hk0, hroot⟩ := hR
  have hR : RootOf p x r := ⟨k0, hk0, hroot⟩
  by_cases hxlen : x < p.length
  case neg =>
    rw [List.set_eq_of_length_le (Nat.le_of_not_lt hxlen)]
    exact fun z w => Iff.rfl
  case pos =>
  by_cases hrx : r = x
  case pos =>
    subst hrx
    rw [show p.set r r = p from by nth_rewrite 2 [← hroot]; exact set_getD_self hxlen]
    exact fun z w => Iff.rfl
  case neg =>
  have hgd : ∀ i, (p.set x r).getD i 0 = if i = x then r else p.getD i 0 := by
    intro i
    rw [getD_set_nat]
    by_cases hix : i = x
    · rw [if_pos ⟨hix, hxlen⟩, if_pos hix]
    · rw [if_neg (fun hh => hix hh.1), if_neg hix]
  have hfix : ∀ u, (p.set x r).getD u 0 = u ↔ p.getD u 0 = u := by
    intro u
    rw [hgd]
    by_cases hux : u = x
    · subst hux
      rw [if_pos rfl]
      constructor
      · intro hh
        exact absurd hh hrx
      · intro hh
        exact absurd ((RootOf_root hh).mp hR) hrx
    · rw [if_neg hux]
  intro z w
  constructor
  · rintro ⟨k, hk, hw⟩
    rw [hfix] at hw
    suffices haux : ∀ k z, rootAux k (p.set x r) z = w → RootOf p z w from haux k z hk
    intro k
    induction k with
    | zero =>
      intro z hz
      rw [rootAux_zero] at hz
      rw [hz]
      exact RootOf_self hw
    | succ k ih =>
      intro z hz
      rw [rootAux_succ] at hz
      by_cases hzf : (p.set x r).getD z 0 = z
      · rw [if_pos hzf] at hz
        rw [hz] at hzf
        rw [show z = w from hz]
        exact RootOf_self ((hfix w).mp hzf)
      · rw [if_neg hzf] at hz
        have ih' := ih _ hz
        by_cases hzx : z = x
        · subst hzx
          rw [hgd, if_pos rfl] at ih'
          have hw' : w = r := (RootOf_root hroot).mp ih'
          rw [hw']
          exact hR
        · have hps : (p.set x r).getD z 0 = p.getD z 0 := by rw [hgd, if_neg hzx]
          rw [hps] at ih'
          have hzf' : p.getD z 0 ≠ z := by rw [← hps]; exact hzf
          exact (RootOf_step hzf').mpr ih'
  · rintro ⟨k, hk, hw⟩
    have hw' : (p.set x r).getD w 0 = w := (hfix w).mpr hw
    suffices haux : ∀ k z, rootAux k p z = w → RootOf (p.set x r) z w from haux k z hk
    intro k
    induction k with
    | zero =>
      intro z hz
      rw [rootAux_zero] at hz
      rw [hz]
      exact RootOf_self hw'
    | succ k ih =>
      intro z hz
      rw [rootAux_succ] at hz
      by_cases hzf : p.getD z 0 = z
      · rw [if_pos hzf] at hz
        rw [show z = w from hz] at hzf
        rw [show z = w from hz]
        exact RootOf_self ((hfix w).mpr hzf)
      · rw [if_neg hzf] at hz
        have ih' := ih _ hz
        by_cases hzx : z = x
        · subst hzx
          have hxw : RootOf p z w := (RootOf_step hzf).mpr ⟨k, hz, hw⟩
          have hwr : w = r := RootOf_unique hxw hR
          have hg : (p.set z r).getD z 0 = r := by rw [hgd, if_pos rfl]
          have hgr : (p.set z r).getD z 0 ≠ z := by rw [hg]; exact hrx
          refine (RootOf_step hgr).mpr ?_
          rw [hg, hwr]
          exact RootOf_self (hwr ▸ hw')
        · have hps : (p.set x r).getD z 0 = p.getD z 0 := by rw [hgd, if_neg hzx]
          have hzf' : (p.set x r).getD z 0 ≠ z := by rw [hps]; exact hzf
          refine (RootOf_step hzf').mpr ?_
          rw [hps]
          exact ih'

/-- Union attach: pointing root `ry` at root `rx` re-roots exactly the class
of `ry` and leaves every other class unchanged. -/
theorem RootOf_set_attach {p : List Nat} {rx ry : Nat}
    (hx : p.getD rx 0 = rx) (hy : p.getD ry 0 = ry) (hne : rx ≠ ry)
    (hylen : ry < p.length) :
    ∀ z w, RootOf (p.set ry rx) z w ↔
      ∃ w₀, RootOf p z w₀ ∧ w = (if w₀ = ry then rx else w₀) := by
  have hgd : ∀ i, (p.set ry rx).getD i 0 = if i = ry then rx else p.getD i 0 := by
    intro i
    rw [getD_set_nat]
    by_cases hiy : i = ry
    · rw [if_pos ⟨hiy, hylen⟩, if_pos hiy]
    · rw [if_neg (fun hh => hiy hh.1), if_neg hiy]
  have hfix : ∀ u, (p.set ry rx).getD u 0 = u ↔ (p.getD u 0 = u ∧ u ≠ ry) := by
    intro u
    rw [hgd]
    by_cases huy : u = ry
    · subst huy
      rw [if_pos rfl]
      constructor
      · intro hh
        exact absurd hh hne
      · rintro ⟨-, hu⟩
        exact absurd rfl hu
    · rw [if_neg huy]
      exact ⟨fun hh => ⟨hh, huy⟩, fun hh => hh.1⟩
  intro z w
  constructor
  · rintro ⟨k, hk, hw⟩
    obtain ⟨hwp, hwy⟩ := (hfix w).mp hw
    suffices haux : ∀ k z, rootAux k (p.set ry rx) z = w →
        ∃ w₀, RootOf p z w₀ ∧ w = (if w₀ = ry then rx else w₀) from haux k z hk
    intro k
    induction k with
    | zero =>
      intro z hz
      rw [rootAux_zero] at hz
      refine ⟨w, ?_, by rw [if_neg hwy]⟩
      rw [hz]
      exact RootOf_self hwp
    | succ k ih =>
      intro z hz
      rw [rootAux_succ] at hz
      by_cases hzf : (p.set ry rx).getD z 0 = z
      · rw [if_pos hzf] at hz
        obtain ⟨hzp, hzy⟩ := (hfix z).mp hzf
        refine ⟨z, RootOf_self hzp, ?_⟩
        rw [if_neg hzy]
        exact hz.symm
      · rw [if_neg hzf] at hz
        obtain ⟨w₀, hw₀, hwe⟩ := ih _ hz
        by_cases hzy : z = ry
        · subst hzy
          have hg : (p.set z rx).getD z 0 = rx := by rw [hgd, if_pos rfl]
          rw [hg] at hw₀
          have hwx : w₀ = rx := (RootOf_root hx).mp hw₀
          refine ⟨z, RootOf_self hy, ?_⟩
          rw [if_pos rfl, hwe, hwx, if_neg hne]
        · have hps : (p.set ry rx).getD z 0 = p.getD z 0 := by rw [hgd, if_neg hzy]
          rw [hps] at hw₀
          have hzf' : p.getD z 0 ≠ z := by rw [← hps]; exact hzf
          exact ⟨w₀, (RootOf_step hzf').mpr hw₀, hwe⟩
  · rintro ⟨w₀, ⟨k, hk, hw₀⟩, hwe⟩
    suffices haux : ∀ k z, rootAux k p z = w₀ →
        RootOf (p.set ry rx) z (if w₀ = ry then rx else w₀) by
      rw [hwe]
      exact haux k z hk
    have hbase : ∀ z, z = w₀ → RootOf (p.set ry rx) z (if w₀ = ry then rx else w₀) := by
      intro z hz
      by_cases hwy : w₀ = ry
      · rw [if_pos hwy, hz, hwy]
        have hg : (p.set ry rx).getD ry 0 = rx := by rw [hgd, if_pos rfl]
        have hne' : (p.set ry rx).getD ry 0 ≠ ry := by rw [hg]; exact hne
        refine (RootOf_step hne').mpr ?_
        rw [hg]
        exact RootOf_self ((hfix rx).mpr ⟨hx, hne⟩)
      · rw [if_neg hwy, hz]
        exact RootOf_self ((hfix w₀).mpr ⟨hw₀, hwy⟩)
    intro k
    induction k with
    | zero =>
      intro z hz
      rw [rootAux_zero] at hz
      exact hbase z hz
    | succ k ih =>
      intro z hz
      rw [rootAux_succ] at hz
      by_cases hzf : p.getD z 0 = z
      · rw [if_pos hzf] at hz
        exact hbase z hz
      · rw [if_neg hzf] at hz
        have ih' := ih _ hz
        by_cases hzy : z = ry
        · rw [hzy] at hzf
          exact absurd hy hzf
        · have hps : (p.set ry rx).getD z 0 = p.getD z 0 := by rw [hgd, if_neg hzy]
          have hzf' : (p.set ry rx).getD z 0 ≠ z := by rw [hps]; exact hzf
          refine (RootOf_step hzf').mpr ?_
          rw [hps]
          exact ih'

/-- Flipping one predicate value from true to false drops `countP` by one. -/
theorem countP_update_false {f g : Nat → Bool} {j : Nat} :
    ∀ (l : List Nat), l.Nodup → j ∈ l → g j = true → f j = false →
      (∀ i ∈ l, i ≠ j → f i = g i) →
      l.countP f + 1 = l.countP g := by
  intro l
  induction l with
  | nil => intro _ hj; cases hj
  | cons a t ih =>
    intro hnd hj hgj hfj hagree
    rw [List.countP_cons, List.countP_cons]
    rcases List.mem_cons.mp hj with rfl | hjt
    · have hcnt : t.countP f = t.countP g := by
        apply List.countP_congr
        intro i hi
        rw [hagree i (List.mem_cons_of_mem _ hi)
          (fun he => (List.nodup_cons.mp hnd).1 (he ▸ hi))]
      rw [hgj, hfj, hcnt]
      simp
    · have hfa : f a = g a := hagree a (List.mem_cons_self _ _)
        (fun he => (List.nodup_cons.mp hnd).1 (he.symm ▸ hjt))
      rw [hfa]
      have := ih (List.nodup_cons.mp hnd).2 hjt hgj hfj
        (fun i hi hij => hagree i (List.mem_cons_of_mem _ hi) hij)
      omega

/-- `countRoots` only depends on the root predicate and the length. -/
theorem countRoots_congr {p q : List Nat} (hlen : q.length = p.length)
    (hiff : ∀ i, (q.getD i 0 = i ↔ p.getD i 0 = i)) : countRoots q = countRoots p := by
  unfold countRoots
  rw [hlen]
  apply List.countP_congr
  intro i _
  simp only [beq_iff_eq]
  exact hiff i

/-- Consequences of attaching root `c` under root `d` in a parent array. -/
theorem attach_facts {p : List Nat} {c d : Nat}
    (hc : p.getD c 0 = c) (hd : p.getD d 0 = d) (hne : d ≠ c) (hclen : c < p.length)
    (hdlen : d < p.length) :
    (p.set c d).length = p.length ∧
    (BoundedParent p → BoundedParent (p.set c d)) ∧
    (∀ a b, SameRoot p a b → SameRoot (p.set c d) a b) ∧
    SameRoot (p.set c d) c d ∧
    countRoots (p.set c d) + 1 = countRoots p := by
  have hatt := RootOf_set_attach hd hc hne hclen
  refine ⟨by rw [List.length_set], ?_, ?_, ?_, ?_⟩
  · intro hb i hi
    rw [List.length_set] at hi
    rw [getD_set_nat, List.length_set]
    by_cases hcc : i = c ∧ c < p.length
    · rw [if_pos hcc]
      exact hdlen
    · rw [if_neg hcc]
      exact hb i hi
  · rintro a b ⟨r, h1, h2⟩
    exact ⟨if r = c then d else r, (hatt a _).mpr ⟨r, h1, rfl⟩,
      (hatt b _).mpr ⟨r, h2, rfl⟩⟩
  · refine ⟨d, (hatt c d).mpr ⟨c, RootOf_self hc, by rw [if_pos rfl]⟩,
      (hatt d d).mpr ⟨d, RootOf_self hd, by rw [if_neg hne]⟩⟩
  · unfold countRoots
    rw [List.length_set]
    apply countP_update_false (List.range p.length) (List.nodup_range _)
      (List.mem_range.mpr hclen)
    · simp only [beq_iff_eq]
      exact hc
    · rw [getD_set_nat, if_pos ⟨rfl, hclen⟩]
      simp only [beq_eq_false_iff_ne, ne_eq]
      exact hne
    · intro i _ hic
      rw [getD_set_nat, if_neg (fun hh => hic hh.1)]

/-- Partial correctness of `kruskal.find`: a successful find returns the
root, changes no root assignment, no root status, no rank and no length, and
preserves boundedness. -/
theorem kruskal.find_spec :
    ∀ (fuel : Nat) (uf : kruskal.UnionFind) (x r : Nat) (uf' : kruskal.UnionFind),
      kruskal.find fuel uf x = some (r, uf') →
      RootOf uf.parent x r ∧
      uf'.rank = uf.rank ∧
      uf'.parent.length = uf.parent.length ∧
      (∀ z w, RootOf uf'.parent z w ↔ RootOf uf.parent z w) ∧
      (∀ i, uf'.parent.getD i 0 = i ↔ uf.parent.getD i 0 = i) ∧
      (BoundedParent uf.parent → BoundedParent uf'.parent) := by
  intro fuel
  induction fuel with
  | zero =>
    intro uf x r uf' h
    exact Option.noConfusion h
  | succ n ih =>
    intro uf x r uf' h
    rw [kruskal.find] at h
    try simp only at h
    split at h
    · rename_i hpx
      split at h
      · exact Option.noConfusion h
      · rename_i r₁ uf₁ hrec
        obtain ⟨hr, hufeq⟩ := Prod.mk.injEq .. ▸ Option.some.inj h
        subst hr
        obtain ⟨f1, f2, f3, f4, f5, f6⟩ := ih uf (uf.parent.getD x 0) r₁ uf₁ hrec
        have g1 : RootOf uf.parent x r₁ := (RootOf_step hpx).mpr f1
        have hrnx : r₁ ≠ x := by
          intro he
          obtain ⟨-, -, hroot⟩ := g1
          rw [he] at hroot
          exact hpx hroot
        rw [← hufeq]
        refine ⟨g1, f2, ?_, ?_, ?_, ?_⟩
        · rw [List.length_set]
          exact f3
        · intro z w
          exact (RootOf_set_compress ((f4 x r₁).mpr g1) z w).trans (f4 z w)
        · intro i
          rw [getD_set_nat]
          by_cases hc : i = x ∧ x < uf₁.parent.length
          · have hix : i = x := hc.1
            subst hix
            rw [if_pos hc]
            exact ⟨fun h' => absurd h' hrnx, fun h' => absurd h' hpx⟩
          · rw [if_neg hc]
            exact f5 i
        · intro hb
          have hb₁ := f6 hb
          intro i hi
          rw [List.length_set] at hi
          rw [getD_set_nat, List.length_set]
          by_cases hc : i = x ∧ x < uf₁.parent.length
          · rw [if_pos hc, f3]
            exact RootOf_lt hb (by rw [← f3]; exact hc.2) g1
          · rw [if_neg hc]
            exact hb₁ i hi
    · rename_i hpx
      obtain ⟨hr, hufeq⟩ := Prod.mk.injEq .. ▸ Option.some.inj h
      have hxx : uf.parent.getD x 0 = x := not_not.mp hpx
      have hrr : r = x := hr.symm.trans hxx
      rw [← hufeq]
      refine ⟨?_, rfl, rfl, fun z w => Iff.rfl, fun i => Iff.rfl, fun hb => hb⟩
      rw [hrr]
      exact RootOf_self hxx

/-- Partial correctness of `kruskal.union`: lengths and boundedness are
preserved, classes only coarsen, the two arguments end in one class, and the
returned flag tells exactly whether the class count dropped by one. -/
theorem kruskal.union_spec {fuel : Nat} {uf : kruskal.UnionFind} {x y : Nat}
    {ok : Bool} {uf' : kruskal.UnionFind}
    (h : kruskal.union fuel uf x y = some (ok, uf'))
    (hb : BoundedParent uf.parent)
    (hx : x < uf.parent.length) (hy : y < uf.parent.length) :
    uf'.parent.length = uf.parent.length ∧
    BoundedParent uf'.parent ∧
    (∀ a b, SameRoot uf.parent a b → SameRoot uf'.parent a b) ∧
    SameRoot uf'.parent x y ∧
    (ok = true → countRoots uf'.parent + 1 = countRoots uf.parent) ∧
    (ok = false → countRoots uf'.parent = countRoots uf.parent) := by
  rw [kruskal.union] at h
  split at h
  · exact Option.noConfusion h
  · rename_i rx uf₁ hf1
    split at h
    · exact Option.noConfusion h
    · rename_i ry uf₂ hf2
      obtain ⟨f1, f2, f3, f4, f5, f6⟩ := kruskal.find_spec fuel uf x rx uf₁ hf1
      obtain ⟨g1, g2, g3, g4, g5, g6⟩ := kruskal.find_spec fuel uf₁ y ry uf₂ hf2
      have hyroot : RootOf uf.parent y ry := (f4 y ry).mp g1
      have hrxlen : rx < uf.parent.length := RootOf_lt hb hx f1
      have hrylen : ry < uf.parent.length := RootOf_lt hb hy hyroot
      have hL2 : uf₂.parent.length = uf.parent.length := g3.trans f3
      have hB2 : BoundedParent uf₂.parent := g6 (f6 hb)
      have hP2 : ∀ z w, RootOf uf₂.parent z w ↔ RootOf uf.parent z w :=
        fun z w => (g4 z w).trans (f4 z w)
      have hI2 : ∀ i, uf₂.parent.getD i 0 = i ↔ uf.parent.getD i 0 = i :=
        fun i => (g5 i).trans (f5 i)
      have hC2 : countRoots uf₂.parent = countRoots uf.parent :=
        countRoots_congr hL2 hI2
      have hrxroot : uf₂.parent.getD rx 0 = rx := by
        obtain ⟨-, -, hroot⟩ := f1
        exact (hI2 rx).mpr hroot
      have hryroot : uf₂.parent.getD ry 0 = ry := by
        obtain ⟨-, -, hroot⟩ := hyroot
        exact (hI2 ry).mpr hroot
      have hx2 : SameRoot uf₂.parent x y → SameRoot uf₂.parent x y := id
      split at h
      · rename_i heq
        obtain ⟨hok, hufeq⟩ := Prod.mk.injEq .. ▸ Option.some.inj h
        rw [← hufeq, ← hok]
        refine ⟨hL2, hB2, ?_, ?_, ?_, fun _ => hC2⟩
        · rintro a b ⟨rr, h1, h2⟩
          exact ⟨rr, (hP2 a rr).mpr h1, (hP2 b rr).mpr h2⟩
        · refine ⟨rx, (hP2 x rx).mpr f1, ?_⟩
          rw [heq]
          exact (hP2 y ry).mpr hyroot
        · intro habs
          exact Bool.noConfusion habs
      · rename_i hneq
        simp only at h
        have hC2len : rx < uf₂.parent.length := by rw [hL2]; exact hrxlen
        have hC2leny : ry < uf₂.parent.length := by rw [hL2]; exact hrylen
        split at h
        · rename_i hrank
          obtain ⟨hok, hufeq⟩ := Prod.mk.injEq .. ▸ Option.some.inj h
          obtain ⟨a1, a2, a3, a4, a5⟩ :=
            attach_facts hrxroot hryroot (fun he => hneq he.symm) hC2len hC2leny
          rw [← hufeq, ← hok]
          refine ⟨?_, ?_, ?_, ?_, ?_, ?_⟩
          · show (uf₂.parent.set rx ry).length = uf.parent.length
            rw [a1, hL2]
          · exact a2 hB2
          · rintro a b ⟨rr, h1, h2⟩
            exact a3 a b ⟨rr, (hP2 a rr).mpr h1, (hP2 b rr).mpr h2⟩
          · obtain ⟨rr, h1, h2⟩ := a4
            refine ⟨rr, ?_, ?_⟩
            · obtain ⟨rr2, hx1, hx2'⟩ := a3 x rx ⟨rx, (hP2 x rx).mpr f1,
                (hP2 rx rx).mpr (RootOf_self ((hI2 rx).mp hrxroot))⟩
              have : rr2 = rr := RootOf_unique hx2' h1
              exact this ▸ hx1
            · obtain ⟨rr2, hy1, hy2'⟩ := a3 y ry ⟨ry, (hP2 y ry).mpr hyroot,
                (hP2 ry ry).mpr (RootOf_self ((hI2 ry).mp hryroot))⟩
              have : rr2 = rr := RootOf_unique hy2' h2
              exact this ▸ hy1
          · intro _
            show countRoots (uf₂.parent.set rx ry) + 1 = countRoots uf.parent
            rw [a5, hC2]
          · intro habs
            exact Bool.noConfusion habs
        · clear hx2
          split at h
          · rename_i hrank2
            obtain ⟨hok, hufeq⟩ := Prod.mk.injEq .. ▸ Option.some.inj h
            obtain ⟨a1, a2, a3, a4, a5⟩ :=
              attach_facts hryroot hrxroot hneq hC2leny hC2len
            rw [← hufeq, ← hok]
            refine ⟨?_, ?_, ?_, ?_, ?_, ?_⟩
            · show (uf₂.parent.set ry rx).length = uf.parent.length
              rw [a1, hL2]
            · exact a2 hB2
            · rintro a b ⟨rr, h1, h2⟩
              exact a3 a b ⟨rr, (hP2 a rr).mpr h1, (hP2 b rr).mpr h2⟩
            · obtain ⟨rr, h1, h2⟩ := a4
              exact ⟨rr, by
                obtain ⟨rr2, hx1, hx2'⟩ := a3 x rx ⟨rx, (hP2 x rx).mpr f1,
                  (hP2 rx rx).mpr (RootOf_self ((hI2 rx).mp hrxroot))⟩
                have he : rr2 = rr := RootOf_unique hx2' h2
                exact he ▸ hx1, by
                obtain ⟨rr2, hy1, hy2'⟩ := a3 y ry ⟨ry, (hP2 y ry).mpr hyroot,
                  (hP2 ry ry).mpr (RootOf_self ((hI2 ry).mp hryroot))⟩
                have he : rr2 = rr := RootOf_unique hy2' h1
                exact he ▸ hy1⟩
            · intro _
              show countRoots (uf₂.parent.set ry rx) + 1 = countRoots uf.parent
              rw [a5, hC2]
            · intro habs
              exact Bool.noConfusion habs
          · obtain ⟨hok, hufeq⟩ := Prod.mk.injEq .. ▸ Option.some.inj h
            obtain ⟨a1, a2, a3, a4, a5⟩ :=
              attach_facts hryroot hrxroot hneq hC2leny hC2len
            rw [← hufeq, ← hok]
            refine ⟨?_, ?_, ?_, ?_, ?_, ?_⟩
            · show (uf₂.parent.set ry rx).length = uf.parent.length
              rw [a1, hL2]
            · exact a2 hB2
            · rintro a b ⟨rr, h1, h2⟩
              exact a3 a b ⟨rr, (hP2 a rr).mpr h1, (hP2 b rr).mpr h2⟩
            · obtain ⟨rr, h1, h2⟩ := a4
              exact ⟨rr, by
                obtain ⟨rr2, hx1, hx2'⟩ := a3 x rx ⟨rx, (hP2 x rx).mpr f1,
                  (hP2 rx rx).mpr (RootOf_self ((hI2 rx).mp hrxroot))⟩
                have he : rr2 = rr := RootOf_unique hx2' h2
                exact he ▸ hx1, by
                obtain ⟨rr2, hy1, hy2'⟩ := a3 y ry ⟨ry, (hP2 y ry).mpr hyroot,
                  (hP2 ry ry).mpr (RootOf_self ((hI2 ry).mp hryroot))⟩
                have he : rr2 = rr := RootOf_unique hy2' h1
                exact he ▸ hy1⟩
            · intro _
              show countRoots (uf₂.parent.set ry rx) + 1 = countRoots uf.parent
              rw [a5, hC2]
            · intro habs
              exact Bool.noConfusion habs

/-- `SameRoot` is transitive. -/
theorem SameRoot.trans {p : List Nat} {a b c : Nat}
    (h₁ : SameRoot p a b) (h₂ : SameRoot p b c) : SameRoot p a c := by
  obtain ⟨r1, ha, hb⟩ := h₁
  obtain ⟨r2, hb', hc⟩ := h₂
  have he : r1 = r2 := RootOf_unique hb hb'
  refine ⟨r1, ha, ?_⟩
  rw [he]
  exact hc

/-- Invariant of the Kruskal edge-processing loop: classes only coarsen, the
carved counter accounts exactly for the merged classes, and afterwards the
endpoints of every processed edge share a class. -/
theorem kruskal.processEdges_spec {fuel : Nat} :
    ∀ (es : List kruskal.Edge) (maze : Maze) (uf : kruskal.UnionFind) (carved : Nat)
      (maze' : Maze) (uf' : kruskal.UnionFind) (carved' : Nat),
      BoundedParent uf.parent →
      (∀ e ∈ es, e.room1 < uf.parent.length ∧ e.room2 < uf.parent.length) →
      kruskal.processEdges fuel es maze uf carved = some (maze', uf', carved') →
      uf'.parent.length = uf.parent.length ∧
      BoundedParent uf'.parent ∧
      carved' + countRoots uf'.parent = carved + countRoots uf.parent ∧
      (∀ a b, SameRoot uf.parent a b → SameRoot uf'.parent a b) ∧
      (∀ e ∈ es, SameRoot uf'.parent e.room1 e.room2) := by
  intro es
  induction es with
  | nil =>
    intro maze uf carved maze' uf' carved' hb _ h
    rw [kruskal.processEdges] at h
    simp only [Option.some.injEq, Prod.mk.injEq] at h
    obtain ⟨-, hu, hc⟩ := h
    rw [← hu, ← hc]
    exact ⟨rfl, hb, rfl, fun a b hs => hs, fun e he => absurd he (List.not_mem_nil e)⟩
  | cons e rest ih =>
    intro maze uf carved maze' uf' carved' hb hbnd h
    rw [kruskal.processEdges] at h
    try simp only at h
    split at h
    · exact Option.noConfusion h
    · rename_i ok uf₁ hun
      obtain ⟨u1, u2, u3, u4, u5, u6⟩ := kruskal.union_spec hun hb
        (hbnd e (List.mem_cons_self _ _)).1 (hbnd e (List.mem_cons_self _ _)).2
      split at h
      · rename_i hok
        obtain ⟨i1, i2, i3, i4, i5⟩ := ih _ uf₁ (carved + 1) maze' uf' carved' u2
          (fun e' he' => by rw [u1]; exact hbnd e' (List.mem_cons_of_mem _ he')) h
        refine ⟨i1.trans u1, i2, ?_, fun a b hs => i4 a b (u3 a b hs), ?_⟩
        · have hc := u5 hok
          omega
        · intro e' he'
          rcases List.mem_cons.mp he' with rfl | h'
          · exact i4 _ _ u4
          · exact i5 e' h'
      · rename_i hok
        have hokf : ok = false := by
          cases ok
          · rfl
          · exact absurd rfl hok
        obtain ⟨i1, i2, i3, i4, i5⟩ := ih _ uf₁ carved maze' uf' carved' u2
          (fun e' he' => by rw [u1]; exact hbnd e' (List.mem_cons_of_mem _ he')) h
        refine ⟨i1.trans u1, i2, ?_, fun a b hs => i4 a b (u3 a b hs), ?_⟩
        · have hc := u6 hokf
          omega
        · intro e' he'
          rcases List.mem_cons.mp he' with rfl | h'
          · exact i4 _ _ u4
          · exact i5 e' h'

/-- The rightward room edge is in the built edge list. -/
theorem kruskal.mem_buildEdges_right {room_rows room_cols offset : Nat} (rx ry : Nat)
    (hy : ry < room_rows) (hx : rx + 1 < room_cols) :
    ({ room1 := ry * room_cols + rx, room2 := ry * room_cols + rx + 1,
       wall_pos := kruskal.pack_wall_pos (offset + rx * 2 + 1) (offset + ry * 2) } :
      kruskal.Edge) ∈ kruskal.buildEdges room_rows room_cols offset := by
  unfold kruskal.buildEdges
  rw [List.mem_flatMap]
  refine ⟨ry, List.mem_range.mpr hy, ?_⟩
  rw [List.mem_flatMap]
  refine ⟨rx, List.mem_range.mpr (by omega), ?_⟩
  rw [List.mem_append]
  left
  rw [if_pos hx]
  exact List.mem_singleton.mpr rfl

/-- The downward room edge is in the built edge list. -/
theorem kruskal.mem_buildEdges_down {room_rows room_cols offset : Nat} (rx ry : Nat)
    (hy : ry + 1 < room_rows) (hx : rx < room_cols) :
    ({ room1 := ry * room_cols + rx, room2 := ry * room_cols + rx + room_cols,
       wall_pos := kruskal.pack_wall_pos (offset + rx * 2) (offset + ry * 2 + 1) } :
      kruskal.Edge) ∈ kruskal.buildEdges room_rows room_cols offset := by
  unfold kruskal.buildEdges
  rw [List.mem_flatMap]
  refine ⟨ry, List.mem_range.mpr (by omega), ?_⟩
  rw [List.mem_flatMap]
  refine ⟨rx, List.mem_range.mpr hx, ?_⟩
  rw [List.mem_append]
  right
  rw [if_pos hy]
  exact List.mem_singleton.mpr rfl

/-- When every built edge has merged, every room shares a class with room 0. -/
theorem kruskal.rooms_connected {room_rows room_cols offset : Nat} {p : List Nat}
    (hpos : 2 ≤ room_rows * room_cols)
    (hrows : 1 ≤ room_rows) (hcols : 1 ≤ room_cols)
    (hedges : ∀ e ∈ kruskal.buildEdges room_rows room_cols offset,
      SameRoot p e.room1 e.room2) :
    ∀ i < room_rows * room_cols, SameRoot p 0 i := by
  have hbase : SameRoot p 0 0 := by
    rcases Nat.lt_or_ge room_cols 2 with hc2 | hc2
    · have hr2 : 2 ≤ room_rows := by
        rcases Nat.lt_or_ge room_rows 2 with hr | hr
        · exfalso
          have : room_rows * room_cols ≤ 1 * 1 := Nat.mul_le_mul (by omega) (by omega)
          omega
        · exact hr
      have hm := hedges _ (kruskal.mem_buildEdges_down 0 0 (by omega) (by omega))
      simp only [Nat.zero_mul, Nat.zero_add] at hm
      obtain ⟨r, h1, -⟩ := hm
      exact ⟨r, h1, h1⟩
    · have hm := hedges _ (kruskal.mem_buildEdges_right 0 0 (by omega) (by omega))
      simp only [Nat.zero_mul, Nat.zero_add] at hm
      obtain ⟨r, h1, -⟩ := hm
      exact ⟨r, h1, h1⟩
  have hrow0 : ∀ rx, rx < room_cols → SameRoot p 0 rx := by
    intro rx
    induction rx with
    | zero => intro _; exact hbase
    | succ k ihk =>
      intro hk
      have hm := hedges _ (kruskal.mem_buildEdges_right k 0 (by omega) hk)
      simp only [Nat.zero_mul, Nat.zero_add] at hm
      exact SameRoot.trans (ihk (by omega)) hm
  have hall : ∀ ry, ry < room_rows → ∀ rx, rx < room_cols →
      SameRoot p 0 (ry * room_cols + rx) := by
    intro ry
    induction ry with
    | zero =>
      intro _ rx hx
      have := hrow0 rx hx
      rw [show 0 * room_cols + rx = rx from by omega]
      exact this
    | succ k ihk =>
      intro hk rx hx
      have hm := hedges _ (kruskal.mem_buildEdges_down rx k hk hx)
      rw [show k * room_cols + rx + room_cols = (k + 1) * room_cols + rx from by ring]
        at hm
      exact SameRoot.trans (ihk (by omega) rx hx) hm
  intro i hi
  have hdecode : i = (i / room_cols) * room_cols + i % room_cols := by
    have h1 := Nat.div_add_mod i room_cols
    have h2 : room_cols * (i / room_cols) = (i / room_cols) * room_cols :=
      Nat.mul_comm ..
    omega
  have hda : i / room_cols < room_rows := by
    rw [Nat.div_lt_iff_lt_mul (by omega)]
    omega
  have hdb : i % room_cols < room_cols := Nat.mod_lt i (by omega)
  rw [hdecode]
  exact hall _ hda _ hdb

/-- A parent array whose elements all share a class with 0 has exactly one
root. -/
theorem countRoots_eq_one {p : List Nat} (hb : BoundedParent p)
    (hpos : 1 ≤ p.length)
    (hconn : ∀ i < p.length, SameRoot p 0 i) : countRoots p = 1 := by
  obtain ⟨R, h0R, -⟩ := hconn 0 hpos
  have hRroot : p.getD R 0 = R := by
    obtain ⟨-, -, hroot⟩ := h0R
    exact hroot
  have hRn : R < p.length := RootOf_lt hb hpos h0R
  have hiR : ∀ i < p.length, RootOf p i R := by
    intro i hi
    obtain ⟨r, h0r, hir⟩ := hconn i hi
    have : r = R := RootOf_unique h0r h0R
    rw [← this]
    exact hir
  have hchar : ∀ i < p.length, (p.getD i 0 = i ↔ i = R) := by
    intro i hi
    constructor
    · intro hroot
      exact ((RootOf_root hroot).mp (hiR i hi)).symm
    · intro hiRe
      rw [hiRe]
      exact hRroot
  unfold countRoots
  have hcongr : (List.range p.length).countP (fun i => p.getD i 0 == i) =
      (List.range p.length).countP (fun i => i == R) := by
    apply List.countP_congr
    intro i hi
    simp only [beq_iff_eq]
    exact hchar i (List.mem_range.mp hi)
  rw [hcongr]
  have := List.count_eq_one_of_mem (List.nodup_range p.length)
    (List.mem_range.mpr hRn)
  simpa [List.count] using this

/-- Every built edge refers to rooms below the room count. -/
theorem kruskal.buildEdges_bounds {room_rows room_cols offset : Nat} :
    ∀ e ∈ kruskal.buildEdges room_rows room_cols offset,
      e.room1 < room_rows * room_cols ∧ e.room2 < room_rows * room_cols := by
  intro e he
  unfold kruskal.buildEdges at he
  rw [List.mem_flatMap] at he
  obtain ⟨ry, hry, he⟩ := he
  rw [List.mem_flatMap] at he
  obtain ⟨rx, hrx, he⟩ := he
  rw [List.mem_range] at hry hrx
  rw [List.mem_append] at he
  have hm1 : (ry + 1) * room_cols ≤ room_rows * room_cols :=
    Nat.mul_le_mul_right room_cols hry
  have he1 : (ry + 1) * room_cols = ry * room_cols + room_cols := by ring
  rcases he with he | he
  · by_cases hc : rx + 1 < room_cols
    · rw [if_pos hc, List.mem_singleton] at he
      subst he
      constructor
      · show ry * room_cols + rx < room_rows * room_cols
        omega
      · show ry * room_cols + rx + 1 < room_rows * room_cols
        omega
    · rw [if_neg hc] at he
      exact absurd he (List.not_mem_nil _)
  · by_cases hc : ry + 1 < room_rows
    · rw [if_pos hc, List.mem_singleton] at he
      subst he
      have hm2 : (ry + 2) * room_cols ≤ room_rows * room_cols :=
        Nat.mul_le_mul_right room_cols (by omega)
      have he2 : (ry + 2) * room_cols = ry * room_cols + room_cols + room_cols := by
        ring
      constructor
      · show ry * room_cols + rx < room_rows * room_cols
        omega
      · show ry * room_cols + rx + room_cols < room_rows * room_cols
        omega
    · rw [if_neg hc] at he
      exact absurd he (List.not_mem_nil _)

/-- The fresh union-find: `n` singleton classes, bounded parents. -/
theorem UnionFind_new_props (n : Nat) :
    (kruskal.UnionFind.new n).parent.length = n ∧
    BoundedParent (kruskal.UnionFind.new n).parent ∧
    countRoots (kruskal.UnionFind.new n).parent = n := by
  have hget : ∀ i, i < n → (List.range n).getD i 0 = i := by
    intro i hi
    rw [List.getD_eq_getElem _ _ (by rw [List.length_range]; exact hi),
      List.getElem_range]
  refine ⟨by simp [kruskal.UnionFind.new], ?_, ?_⟩
  · intro i hi
    have hi' : i < n := by
      have hl : (kruskal.UnionFind.new n).parent.length = n := by
        simp [kruskal.UnionFind.new]
      rw [hl] at hi
      exact hi
    show (List.range n).getD i 0 < (List.range n).length
    rw [List.length_range, hget i hi']
    exact hi'
  · show countRoots (List.range n) = n
    unfold countRoots
    rw [List.length_range]
    have hall : (List.range n).countP (fun i => (List.range n).getD i 0 == i) =
        (List.range n).length := by
      rw [List.countP_eq_length]
      intro a ha
      rw [hget a (List.mem_range.mp ha)]
      exact beq_self_eq_true a
    rw [hall, List.length_range]

/-- Processing any permutation of the built edges from the fresh union-find
carves exactly `rooms - 1` connecting walls. -/
theorem kruskal.spanning_count {fuel : Nat} {es : List kruskal.Edge}
    {room_rows room_cols offset : Nat}
    (hperm : es.Perm (kruskal.buildEdges room_rows room_cols offset))
    {maze maze' : Maze} {uf' : kruskal.UnionFind} {carved : Nat}
    (hpos : 1 ≤ room_rows * room_cols)
    (h : kruskal.processEdges fuel es maze
      (kruskal.UnionFind.new (room_rows * room_cols)) 0 = some (maze', uf', carved)) :
    carved + 1 = room_rows * room_cols := by
  obtain ⟨hlen0, hb0, hcount0⟩ := UnionFind_new_props (room_rows * room_cols)
  have hbnd : ∀ e ∈ es,
      e.room1 < (kruskal.UnionFind.new (room_rows * room_cols)).parent.length ∧
      e.room2 < (kruskal.UnionFind.new (room_rows * room_cols)).parent.length := by
    intro e he
    rw [hlen0]
    exact kruskal.buildEdges_bounds e (hperm.mem_iff.mp he)
  obtain ⟨p1, p2, p3, p4, p5⟩ :=
    kruskal.processEdges_spec es maze _ 0 maze' uf' carved hb0 hbnd h
  rcases Nat.lt_or_ge (room_rows * room_cols) 2 with hn1 | hn2
  · have hn : room_rows * room_cols = 1 := by omega
    have hrr : room_rows = 1 := Nat.eq_one_of_mul_eq_one_right hn
    have hrc : room_cols = 1 := Nat.eq_one_of_mul_eq_one_left hn
    have hbe : kruskal.buildEdges room_rows room_cols offset = [] := by
      rw [hrr, hrc]
      rfl
    have hesnil : es = [] := (hbe ▸ hperm).eq_nil
    rw [hesnil, kruskal.processEdges] at h
    simp only [Option.some.injEq, Prod.mk.injEq] at h
    obtain ⟨-, -, hc⟩ := h
    omega
  · have hrr : 1 ≤ room_rows := by
      rcases Nat.eq_zero_or_pos room_rows with h0 | h1
      · rw [h0, Nat.zero_mul] at hn2
        omega
      · exact h1
    have hrc : 1 ≤ room_cols := by
      rcases Nat.eq_zero_or_pos room_cols with h0 | h1
      · rw [h0, Nat.mul_zero] at hn2
        omega
      · exact h1
    have hedges : ∀ e ∈ kruskal.buildEdges room_rows room_cols offset,
        SameRoot uf'.parent e.room1 e.room2 :=
      fun e he => p5 e (hperm.mem_iff.mpr he)
    have hconn := kruskal.rooms_connected hn2 hrr hrc hedges
    have hone : countRoots uf'.parent = 1 := by
      apply countRoots_eq_one p2
      · rw [p1, hlen0]
        omega
      · intro i hi
        apply hconn
        rw [p1, hlen0] at hi
        exact hi
    rw [hone, hcount0] at p3
    omega

/-! ## Lemmas for the batched pipeline (`main.rs:176-211`) -/

/-- The first `k` batches together cover exactly the ids below
`min (k * bs) count`. -/
theorem range_chunks_aux (bs count : Nat) :
    ∀ k, (List.range k).flatMap
        (fun j => List.range' (j * bs) (min (j * bs + bs) count - j * bs)) =
      List.range (min (k * bs) count) := by
  intro k
  induction k with
  | zero => simp
  | succ n ih =>
    rw [List.range_succ, List.flatMap_append, ih]
    simp only [List.flatMap_cons, List.flatMap_nil, List.append_nil]
    rcases Nat.lt_or_ge (n * bs) count with hlt | hge
    · have hmin : min (n * bs) count = n * bs := by omega
      rw [hmin, List.range_eq_range', List.range_eq_range']
      have hsucc : (n + 1) * bs = n * bs + bs := by ring
      have harr : min (n * bs + bs) count - n * bs + n * bs =
          min ((n + 1) * bs) count := by omega
      have happ := List.range'_append_1 0 (n * bs)
        (min (n * bs + bs) count - n * bs)
      rw [Nat.zero_add] at happ
      rw [happ, harr]
    · have hmin : min (n * bs) count = count := by omega
      have hlen : min (n * bs + bs) count - n * bs = 0 := by omega
      have hsucc : (n + 1) * bs = n * bs + bs := by ring
      have hmin2 : min ((n + 1) * bs) count = count := by omega
      rw [hmin, hlen, hmin2]
      simp

/-- All `ceil(count / bs)` batches together cover exactly `0..count`. -/
theorem range_chunks (bs count : Nat) (hbs : 1 ≤ bs) :
    (List.range ((count + bs - 1) / bs)).flatMap
      (fun j => List.range' (j * bs) (min (j * bs + bs) count - j * bs)) =
    List.range count := by
  rw [range_chunks_aux]
  have hK : count ≤ ((count + bs - 1) / bs) * bs := by
    have hdm := Nat.div_add_mod (count + bs - 1) bs
    have hmod : (count + bs - 1) % bs < bs := Nat.mod_lt _ (by omega)
    have hcomm : bs * ((count + bs - 1) / bs) = ((count + bs - 1) / bs) * bs :=
      Nat.mul_comm ..
    omega
  have hm : min (((count + bs - 1) / bs) * bs) count = count := by omega
  rw [hm]

end MazeGen

/-! # Theorems for the claims -/

namespace MazeGen

/-- C5: for every maze state and all coordinates, `get_cell` returns false
whenever `x ≥ cols` or `y ≥ rows`, and `set_cell` at such coordinates leaves
the maze unchanged (`types.rs:26-49`). -/
theorem get_set_out_of_bounds (m : Maze) (x y : Nat) (v : Bool)
    (h : m.cols ≤ x ∨ m.rows ≤ y) :
    m.get_cell x y = false ∧ m.set_cell x y v = m := by
  constructor <;> simp [Maze.get_cell, Maze.set_cell, if_pos h]

/-- Witness for `get_set_out_of_bounds` at a concrete 2×2 maze and x = 5. -/
theorem get_set_out_of_bounds_witness :
    ((Maze.new 2 2).cols ≤ 5 ∨ (Maze.new 2 2).rows ≤ 0) ∧
      ((Maze.new 2 2).get_cell 5 0 = false ∧
        (Maze.new 2 2).set_cell 5 0 true = Maze.new 2 2) :=
  ⟨Or.inl (by decide), get_set_out_of_bounds (Maze.new 2 2) 5 0 true (Or.inl (by decide))⟩

/-- C1 counterexample: two open nodes with equal `f = 5` and `g = 3` vs
`g = 2`. The claim says the larger-`g` node is served first, i.e. compares
greater in the max-heap order; in fact it compares less, and the smaller-`g`
node compares greater, so the smaller-`g` node is popped first. -/
theorem astar_order_tie_counterexample :
    AStarNode.cmp ⟨0, 0, 3, 5⟩ ⟨1, 0, 2, 5⟩ = Ordering.lt ∧
      AStarNode.cmp ⟨1, 0, 2, 5⟩ ⟨0, 0, 3, 5⟩ = Ordering.gt := by
  decide

/-- C1 amended: in the A* priority queue (a max-heap under `AStarNode.cmp`),
node `a` is served strictly before `b` exactly when `a.f < b.f`, or
`a.f = b.f` and `a.g < b.g`: ties on `f` prefer the *smaller* `g`
(`solvers/astar.rs:14-20`). -/
theorem astar_order_characterization (a b : AStarNode) :
    a.cmp b = Ordering.gt ↔
      (a.f_score < b.f_score ∨ (a.f_score = b.f_score ∧ a.g_score < b.g_score)) := by
  unfold AStarNode.cmp
  rcases Nat.lt_trichotomy a.f_score b.f_score with h | h | h
  · rw [Nat.compare_eq_gt.mpr h]
    simp [Ordering.then]
    exact Or.inl h
  · rw [Nat.compare_eq_eq.mpr h.symm]
    simp only [Ordering.then, Nat.compare_eq_gt]
    constructor
    · intro hg; exact Or.inr ⟨h, hg⟩
    · rintro (hf | ⟨-, hg⟩)
      · omega
      · exact hg
  · rw [Nat.compare_eq_lt.mpr h]
    simp [Ordering.then]
    omega

/-- C7 counterexample: on a 5×5 grid, `base = 25 / 10 = 2`, so the drawn wall
count can be `min_walls = 6`, which is below 30% of the 25 cells
(`10 * 6 < 3 * 25`). -/
theorem searchformer_wall_bounds_counterexample :
    (searchformer.drawNumWalls { seq := fun _ => 0, pos := 0 } 5 5).map Prod.fst = some 6 ∧
      10 * 6 < 3 * (5 * 5) := by
  exact ⟨rfl, by norm_num⟩

/-- C7 amended: every drawn wall count lies between `3 * (rows * cols / 10)`
and `5 * (rows * cols / 10)`; the upper bound is still at most 50% of all
cells, but the lower bound can fall below 30% because `base = total / 10`
rounds down (`generators/searchformer.rs:14-27`). -/
theorem searchformer_num_walls_bounds (rng : Rng) (rows cols : Nat) (p : Nat × Rng)
    (h : searchformer.drawNumWalls rng rows cols = some p) :
    3 * (rows * cols / 10) ≤ p.1 ∧ p.1 ≤ 5 * (rows * cols / 10) ∧
      2 * p.1 ≤ rows * cols := by
  unfold searchformer.drawNumWalls searchformer.wallBounds Rng.gen_range_incl at h
  simp only at h
  split at h
  · rename_i hle
    have hp := (Option.some_injective _ h.symm)
    have h1 : p.1 = rows * cols / 10 * 3 +
        rng.seq rng.pos % (rows * cols / 10 * 5 - rows * cols / 10 * 3 + 1) := by
      rw [hp]
    have hmod : rng.seq rng.pos % (rows * cols / 10 * 5 - rows * cols / 10 * 3 + 1) <
        rows * cols / 10 * 5 - rows * cols / 10 * 3 + 1 := Nat.mod_lt _ (by omega)
    have hdiv : rows * cols / 10 * 10 ≤ rows * cols := Nat.div_mul_le_self _ _
    omega
  · exact absurd h (by simp)

/-- Witness for `searchformer_num_walls_bounds` on the 5×5 grid with the
all-zero stream, where the drawn wall count is 6. -/
theorem searchformer_num_walls_bounds_witness :
    3 * (5 * 5 / 10) ≤ 6 ∧ 6 ≤ 5 * (5 * 5 / 10) ∧ 2 * 6 ≤ 5 * 5 :=
  searchformer_num_walls_bounds { seq := fun _ => 0, pos := 0 } 5 5
    (6, { seq := fun _ => 0, pos := 1 }) rfl

/-- C8: whenever `start = goal`, the solver returns an empty path: the very
first popped node is the goal, the loop breaks with `came_from[goal]` still
unset, and the reconstruction loop body never runs, so `path` stays empty
(`astar.rs:140-167`). -/
theorem solve_start_eq_goal (maze : Maze) (fuel : Nat) (sol : Solution)
    (hsg : maze.start = maze.goal) (h : solve maze fuel = some sol) :
    sol.path = [] := by
  cases fuel with
  | zero => simp [solve, solveSearch, solveLoop] at h
  | succ n =>
    simp only [solve, solveSearch, solveInit, solveLoop, popMax, popMaxAux] at h
    rw [← hsg] at h
    simp only [if_pos rfl, and_self, if_true] at h
    simp only [Bool.false_eq_true, if_false, or_true, if_true, reconstructLoop, if_pos rfl,
      ne_eq, eq_self_iff_true, not_true_eq_false, Option.some.injEq] at h
    rw [← h]

/-- Witness for `solve_start_eq_goal`: the 1×2 maze with both cells floor and
`start = goal = (1,0)` yields an empty path. -/
theorem solve_start_eq_goal_witness :
    ({ grid := [3], start := (1,0), goal := (1,0), rows := 1, cols := 2,
       cols_bytes := 1 : Maze }).start =
      ({ grid := [3], start := (1,0), goal := (1,0), rows := 1, cols := 2,
         cols_bytes := 1 : Maze }).goal ∧
      (Solution.mk [] [ReasoningEvent.close 1 0 0 0]).path = [] :=
  ⟨rfl, solve_start_eq_goal
    { grid := [3], start := (1,0), goal := (1,0), rows := 1, cols := 2, cols_bytes := 1 }
    10 (Solution.mk [] [ReasoningEvent.close 1 0 0 0]) rfl rfl⟩

/-- C9: in every reasoning trace returned by the A* solver, each cell has at
most one *close* event, and every *close* event for a cell other than the
start is preceded by an earlier *create* event for that same cell
(`astar.rs:65-136`). -/
theorem solve_trace_valid (maze : Maze) (fuel : Nat) (sol : Solution)
    (hsx : maze.start.1 < maze.cols) (hsy : maze.start.2 < maze.rows)
    (hsmall : maze.rows * maze.cols < cfMAX)
    (h : solve maze fuel = some sol) :
    (∀ x y, countClose x y sol.reasoning ≤ 1) ∧
      CreatePrecedesClose maze.start sol.reasoning := by
  simp only [solve] at h
  cases hs : solveSearch maze fuel with
  | none => rw [hs] at h; exact absurd h (by simp)
  | some st =>
    rw [hs] at h
    dsimp only at h
    have hloop : solveLoop maze maze.goal.1 maze.goal.2 fuel (solveInit maze) = some st := by
      rw [← hs]; rfl
    have hfin : FinalInv maze st :=
      solveLoop_final fuel (solveInit maze) st (searchinv_init maze hsx hsy hsmall) hloop
    have hreas : sol.reasoning = st.reasoning := by
      split at h
      · cases hr : reconstructLoop maze.cols
            (maze.start.2 * maze.cols + maze.start.1) st.came_from fuel
            (maze.goal.2 * maze.cols + maze.goal.1) [] with
        | none => rw [hr] at h; exact absurd h (by simp)
        | some p =>
          rw [hr] at h
          dsimp only at h
          simp only [Option.some.injEq] at h
          rw [← h]
      · simp only [Option.some.injEq] at h
        rw [← h]
    rw [hreas]
    exact ⟨hfin.close_le, hfin.prec⟩

/-- Witness for `solve_trace_valid` on a 1×2 two-floor maze. -/
theorem solve_trace_valid_witness :
    maze1x2.start.1 < maze1x2.cols ∧ maze1x2.start.2 < maze1x2.rows ∧
      maze1x2.rows * maze1x2.cols < cfMAX ∧
      ((∀ x y, countClose x y [ReasoningEvent.close 0 0 0 1,
          ReasoningEvent.create 1 0 1 0, ReasoningEvent.close 1 0 1 0] ≤ 1) ∧
        CreatePrecedesClose (0, 0) [ReasoningEvent.close 0 0 0 1,
          ReasoningEvent.create 1 0 1 0, ReasoningEvent.close 1 0 1 0]) :=
  ⟨by decide, by decide, by decide, solve_trace_valid maze1x2 10
    (Solution.mk [(0, 0), (1, 0)] [ReasoningEvent.close 0 0 0 1,
      ReasoningEvent.create 1 0 1 0, ReasoningEvent.close 1 0 1 0])
    (by decide) (by decide) (by decide) rfl⟩

/-- C3 counterexample: on the 1×2 maze whose start cell (0,0) is a wall and
whose goal (1,0) is the only floor cell, the solver returns the non-empty
path [(0,0), (1,0)] containing the wall cell (0,0): the solver never checks
that the start cell is floor, so "every path cell is a floor cell" fails. -/
theorem solve_path_wall_start_counterexample :
    (solve maze1x2WallStart 10).map Solution.path = some [(0, 0), (1, 0)] ∧
      maze1x2WallStart.get_cell 0 0 = false :=
  ⟨rfl, rfl⟩

/-- C3 amended: provided the maze's start cell is itself a floor cell (the
solver never checks it — see the counterexample), every non-empty returned
path has orthogonally adjacent consecutive cells, consists of floor cells
only, and its cell count equals the goal cell's final `g` plus 1
(`astar.rs:94-167`). -/
theorem solve_path_valid (maze : Maze) (fuel : Nat) (sol : Solution)
    (hsx : maze.start.1 < maze.cols) (hsy : maze.start.2 < maze.rows)
    (hgx : maze.goal.1 < maze.cols) (hgy : maze.goal.2 < maze.rows)
    (hsmall : maze.rows * maze.cols < cfMAX)
    (hstart_floor : maze.get_cell maze.start.1 maze.start.2 = true)
    (h : solve maze fuel = some sol) (hne : sol.path ≠ []) :
    List.Chain' adjacent sol.path ∧
      (∀ p ∈ sol.path, maze.get_cell p.1 p.2 = true) ∧
      ∀ st, solveSearch maze fuel = some st →
        sol.path.length = st.g_scores (maze.goal.2 * maze.cols + maze.goal.1) + 1 := by
  simp only [solve] at h
  cases hs : solveSearch maze fuel with
  | none => rw [hs] at h; exact absurd h (by simp)
  | some st =>
    rw [hs] at h
    dsimp only at h
    have hloop : solveLoop maze maze.goal.1 maze.goal.2 fuel (solveInit maze) = some st := by
      rw [← hs]; rfl
    have hfin : FinalInv maze st :=
      solveLoop_final fuel (solveInit maze) st (searchinv_init maze hsx hsy hsmall) hloop
    split at h
    · rename_i hcond
      cases hr : reconstructLoop maze.cols
          (maze.start.2 * maze.cols + maze.start.1) st.came_from fuel
          (maze.goal.2 * maze.cols + maze.goal.1) [] with
      | none => rw [hr] at h; exact absurd h (by simp)
      | some vec =>
        rw [hr] at h
        dsimp only at h
        simp only [Option.some.injEq] at h
        obtain ⟨l, hvec, hlen, hfl, -, hchain⟩ :=
          reconstruct_spec hfin hsx fuel _ maze.goal.1 maze.goal.2 [] vec hgx hgy rfl
            hcond.symm hr
        rw [List.nil_append] at hvec
        rw [hvec] at h
        have hpath := congrArg Solution.path h
        dsimp only at hpath
        by_cases hl : l = []
        · subst hl
          rw [if_neg (by simp)] at hpath
          exact absurd hpath.symm hne
        · rw [if_pos hl] at hpath
          have hpath2 : sol.path = maze.start :: l.reverse := by
            rw [← hpath, List.reverse_append, List.reverse_singleton,
              List.singleton_append]
          refine ⟨?_, ?_, ?_⟩
          · rw [hpath2]
            have := hchain [] (List.chain'_singleton _)
            rw [List.append_nil] at this
            exact this
          · intro p hp
            rw [hpath2] at hp
            rcases List.mem_cons.mp hp with rfl | hp'
            · exact hstart_floor
            · exact hfl p (List.mem_reverse.mp hp')
          · intro st' hst'
            have hst : st = st' := Option.some.inj hst'
            subst hst
            rw [hpath2, List.length_cons, List.length_reverse, hlen]
    · rename_i hcond
      simp only [Option.some.injEq] at h
      have hpath := congrArg Solution.path h
      dsimp only at hpath
      exact absurd hpath.symm hne

/-- Witness for `solve_path_valid` on the 1×2 maze with both cells floor:
path [(0,0), (1,0)], goal `g = 1`. -/
theorem solve_path_valid_witness :
    List.Chain' adjacent [((0 : Nat), (0 : Nat)), ((1 : Nat), (0 : Nat))] ∧
      (∀ p ∈ [((0 : Nat), (0 : Nat)), ((1 : Nat), (0 : Nat))],
        maze1x2.get_cell p.1 p.2 = true) ∧
      ∀ st, solveSearch maze1x2 10 = some st →
        ([((0 : Nat), (0 : Nat)), ((1 : Nat), (0 : Nat))] : List (Nat × Nat)).length =
          st.g_scores (0 * 2 + 1) + 1 :=
  solve_path_valid maze1x2 10
    (Solution.mk [(0, 0), (1, 0)] [ReasoningEvent.close 0 0 0 1,
      ReasoningEvent.create 1 0 1 0, ReasoningEvent.close 1 0 1 0])
    (by decide) (by decide) (by decide) (by decide) (by decide) (by decide) rfl
    (by decide)

/-- C10: on a well-formed maze, writing an in-bounds cell with `set_cell`
makes `get_cell` of that cell return the written value, and leaves every
other in-bounds cell unchanged — one bit of the packed row-major bitset is
written and no other cell is disturbed (`types.rs:11-50`). -/
theorem set_cell_get_cell (m : Maze) (hwf : m.wf) (x y : Nat) (v : Bool)
    (hx : x < m.cols) (hy : y < m.rows) (x' y' : Nat)
    (hx' : x' < m.cols) (hy' : y' < m.rows) :
    (m.set_cell x y v).get_cell x y = v ∧
      ((x', y') ≠ (x, y) → (m.set_cell x y v).get_cell x' y' = m.get_cell x' y') :=
  set_get_frame m hwf x y v hx hy x' y' hx' hy'

/-- Witness for `set_cell_get_cell`: write cell (1,1) of a fresh 2×2 maze and
read back (1,1) and the untouched (0,1). -/
theorem set_cell_get_cell_witness :
    (Maze.new 2 2).wf ∧ 1 < (Maze.new 2 2).cols ∧ 1 < (Maze.new 2 2).rows ∧
      0 < (Maze.new 2 2).cols ∧
      (((Maze.new 2 2).set_cell 1 1 true).get_cell 1 1 = true ∧
        (((0 : Nat), (1 : Nat)) ≠ ((1 : Nat), (1 : Nat)) →
          ((Maze.new 2 2).set_cell 1 1 true).get_cell 0 1 = (Maze.new 2 2).get_cell 0 1)) :=
  ⟨by decide, by decide, by decide, by decide,
    set_cell_get_cell (Maze.new 2 2) (by decide) 1 1 true (by decide) (by decide)
      0 1 (by decide) (by decide)⟩

/-- C2: for every digest function modelling the std `DefaultHasher`, every
stream constructor modelling `Xoshiro256PlusPlus::from_seed`, and every
`(master_seed, generator, solver, rows, cols, params)`, the batched parallel
pipeline of `main.rs:176-211` associates every instance id below `count`
with exactly `runInstance ... instance_id` — a pure function of the master
seed, the generator kind, the solver kind and the instance id (through
`create_instance_prng`, `prng.rs:8-36`) and the maze parameters — for every
batch size, so the per-instance Maze and Solution are identical across
runs, batch sizes and scheduling orders. -/
theorem instance_determinism {H : List Nat → Nat} {xoshiro : List Nat → Rng}
    {seed : Nat} {g : GeneratorType} {s : SolverType} {rows cols : Nat}
    {params : GeneratorParams} {fuel : Nat} {bs count : Nat} (hbs : 1 ≤ bs) :
    runBatched H xoshiro seed g s rows cols params fuel bs count =
      (List.range count).map
        (fun i => (i, runInstance H xoshiro seed g s rows cols params fuel i)) := by
  unfold runBatched batchStarts batchInstances
  rw [List.flatMap_map, ← List.map_flatMap, range_chunks bs count hbs]

/-- Witness for `instance_determinism`: batch size 3, count 7, with the
concrete digest and stream stand-ins. -/
theorem instance_determinism_witness :
    1 ≤ 3 ∧
      runBatched sumHash sumStream 42 GeneratorType.dfs SolverType.astar 5 5
          fullCoverage 10 3 7 =
        (List.range 7).map
          (fun i => (i, runInstance sumHash sumStream 42 GeneratorType.dfs
            SolverType.astar 5 5 fullCoverage 10 i)) :=
  ⟨by decide, instance_determinism (by decide)⟩

/-- C6: in the Kruskal generator's edge-processing phase
(`kruskal.rs:136-147` over the shuffled edge list, with union-by-rank
`kruskal.rs:31-54`), the number of connecting wall cells carved (one per
successful union) is exactly the number of rooms minus 1: the carved rooms
form a spanning tree. -/
theorem kruskal_spanning_tree {rng : Rng} {fuel room_rows room_cols offset : Nat}
    {maze maze' : Maze} {uf' : kruskal.UnionFind} {carved : Nat}
    (hpos : 1 ≤ room_rows * room_cols)
    (h : kruskal.processEdges fuel
      (shuffle (kruskal.buildEdges room_rows room_cols offset) rng).1 maze
      (kruskal.UnionFind.new (room_rows * room_cols)) 0 = some (maze', uf', carved)) :
    carved + 1 = room_rows * room_cols :=
  kruskal.spanning_count (shuffle_perm _ rng) hpos h

/-- Witness for `kruskal_spanning_tree`: a 2×2 room grid carves exactly 3
connecting walls. -/
theorem kruskal_spanning_tree_witness :
    1 ≤ 2 * 2 ∧ 3 + 1 = 2 * 2 :=
  ⟨by decide, kruskal_spanning_tree (by decide)
    (show kruskal.processEdges 10 (shuffle (kruskal.buildEdges 2 2 0) zeroRng).1
        (Maze.new 3 3) (kruskal.UnionFind.new 4) 0 =
      some ({ grid := [0, 5, 2], start := (0, 0), goal := (0, 0), rows := 3, cols := 3,
              cols_bytes := 1 },
        { parent := [0, 0, 0, 1], rank := [2, 1, 0, 0] }, 3) from rfl)⟩

/-- C4 counterexample: on the 1×1 grid the drunkard's walk generator
terminates (the resampling loop is guarded by `floors.len() > 1`,
`drunkards_walk.rs:102`) and returns `start = goal = (0,0)`, refuting the
distinctness part of the claim. -/
theorem generate_start_goal_distinct_counterexample :
    (generate_maze GeneratorType.drunkardsWalk zeroRng 1 1 fullCoverage 10).map
      (fun p => (p.1.start, p.1.goal)) = some ((0, 0), (0, 0)) := by
  rfl

/-- C4 amended: for every generator variant, on every grid with at least two
cells, and on every random stream on which generation terminates, the
returned maze has distinct, in-bounds, floor start and goal cells
(`dfs.rs:75-96`, `kruskal.rs:149-171`, `wilson.rs:110-131`,
`drunkards_walk.rs:77-109`, `searchformer.rs:45-74`). -/
theorem generate_start_goal_valid {g : GeneratorType} {rng : Rng} {rows cols : Nat}
    {params : GeneratorParams} {fuel : Nat} {m : Maze} {rng' : Rng}
    (htot : 2 ≤ rows * cols)
    (h : generate_maze g rng rows cols params fuel = some (m, rng')) :
    StartGoalValid m := by
  cases g with
  | dfs => exact dfs_generate_valid h
  | kruskal => exact kruskal_generate_valid h
  | wilson => exact wilson_generate_valid h
  | searchformer => exact searchformer_generate_valid h
  | drunkardsWalk => exact drunkards_generate_valid htot h

/-- Witness for `generate_start_goal_valid`: the drunkard's walk on the 1×2
grid with the identity stream terminates with start (1,0) and goal (0,0). -/
theorem generate_start_goal_valid_witness :
    2 ≤ 1 * 2 ∧ StartGoalValid
      { grid := [3], start := (1, 0), goal := (0, 0), rows := 1, cols := 2,
        cols_bytes := 1 } :=
  ⟨by decide, generate_start_goal_valid (by decide)
    (show generate_maze GeneratorType.drunkardsWalk { seq := fun i => i, pos := 0 } 1 2
        fullCoverage 10 =
      some ({ grid := [3], start := (1, 0), goal := (0, 0), rows := 1, cols := 2,
              cols_bytes := 1 }, { seq := fun i => i, pos := 5 }) from rfl)⟩

end MazeGen
